import Mathlib

/-!
Signalling server: session store, room store and message routing.

A shallow embedding of the socket handlers of `src/server.js`.

* The two JavaScript `Map`s `clients` and `rooms` are association lists kept in
  insertion order (the order a `for (... of map.entries())` loop visits them);
  a JavaScript `Set` of socket ids is a list in insertion order.
* Message fields that the handlers read as identifiers (`userId`, `roomId`,
  `target`, ...) are strings, as in the data model of the specification; the
  relayed session descriptions and candidates are values the server never
  inspects, represented by their JSON text.
* The socket.io server is the connection gateway.  Its state is the table
  `sids` of the connected sockets with the rooms each of them is in: a socket
  is put in the room named by its own id when it connects (this is what makes
  `io.to(socketId)` reach one socket), `socket.join` adds a room, nothing in
  `server.js` calls `socket.leave`, and a socket has left all its rooms when
  its `disconnect` handler runs.  `socket.emit` reaches the socket itself,
  `socket.to(room).emit` reaches the sockets in `room` other than the sender,
  `io.to(room).emit` reaches the sockets in `room`.
-/

namespace SignallingServer

/-! ## Data model -/

/-- Socket id of a connection (`socket.id`). -/
abbrev ConnId := String

/-- Room identifier as sent by clients. -/
abbrev RoomId := String

/-- A relayed value the server does not inspect (offer, answer, candidate, callerInfo). -/
abbrev Payload := String

/-- The object stored in `clients` by the `register` handler. -/
structure ClientInfo where
  userId : String
  name : String
  socketId : ConnId
deriving DecidableEq

/-- Events emitted by the server, with the fields the handlers compute. -/
inductive Msg where
  | registered (socketId : ConnId)
  | joinedRoom (roomId : RoomId) (participants : Nat)
  | userJoined (userId : String) (socketId : ConnId)
  | offer (offer : Payload) (sender : ConnId)
  | answer (answer : Payload) (sender : ConnId)
  | iceCandidate (candidate : Payload) (sender : ConnId)
  | incomingCall (caller : Payload) (callId : String)
  | callRequest (sender : String) (offer : Payload)
  | callFailed (reason : String) (target : String)
  | callResponse (accepted : Bool) (callId : String) (responder : Option ClientInfo)
  | callEnded (sender : ConnId)
  | userLeft (socketId : ConnId)
  | testResponse (socketId : ConnId) (timestamp : String)
deriving DecidableEq

/-- The three ways a handler sends: `socket.emit`, `socket.to(room).emit`, `io.to(room).emit`. -/
inductive Emit where
  | socketEmit (socket : ConnId) (msg : Msg)
  | socketTo (socket : ConnId) (room : RoomId) (msg : Msg)
  | ioTo (room : RoomId) (msg : Msg)
deriving DecidableEq

/-- Server state: the two stores of `server.js` and the room table of the gateway. -/
structure ServerState where
  clients : List (ConnId × ClientInfo)
  rooms : List (RoomId × List ConnId)
  sids : List (ConnId × List RoomId)
deriving DecidableEq

/-- State at start-up: `new Map()` twice, no socket connected. -/
def init : ServerState := ⟨[], [], []⟩

/-! ## JavaScript `Map` and `Set` in insertion order -/

/-- The call `map.has(k)`. -/
def mapHas {V : Type} (k : String) : List (String × V) → Bool
  | [] => false
  | (k', _) :: rest => if k' = k then true else mapHas k rest

/-- The call `map.get(k)`; `none` is `undefined`. -/
def mapGet {V : Type} (k : String) : List (String × V) → Option V
  | [] => none
  | (k', v) :: rest => if k' = k then some v else mapGet k rest

/-- The call `map.set(k, v)`: an existing key keeps its position, a new key goes last. -/
def mapSet {V : Type} (k : String) (v : V) : List (String × V) → List (String × V)
  | [] => [(k, v)]
  | (k', v') :: rest => if k' = k then (k, v) :: rest else (k', v') :: mapSet k v rest

/-- In-place mutation of the value stored under `k` (as in `map.get(k).add(x)`). -/
def mapModify {V : Type} (k : String) (f : V → V) : List (String × V) → List (String × V)
  | [] => []
  | (k', v) :: rest => if k' = k then (k', f v) :: rest else (k', v) :: mapModify k f rest

/-- The call `map.delete(k)`. -/
def mapDelete {V : Type} (k : String) : List (String × V) → List (String × V)
  | [] => []
  | (k', v) :: rest => if k' = k then mapDelete k rest else (k', v) :: mapDelete k rest

/-- The call `set.add(x)`. -/
def setAdd (x : String) (s : List String) : List String :=
  if x ∈ s then s else s ++ [x]

/-- The call `set.delete(x)`. -/
def setDelete (x : String) (s : List String) : List String :=
  s.filter (fun y => decide (y ≠ x))

/-- Member set of room `r` in the Room Store, empty when `r` is not a key. -/
def members (s : ServerState) (r : RoomId) : List ConnId :=
  (mapGet r s.rooms).getD []

/-- Whether socket `c` is connected. -/
def connected (s : ServerState) (c : ConnId) : Bool :=
  mapHas c s.sids

/-- Rooms of the gateway that socket `c` is in. -/
def socketRooms (s : ServerState) (c : ConnId) : List RoomId :=
  (mapGet c s.sids).getD []

/-! ## Handlers -/

/-- The loop `for (const [socketId, client] of clients.entries())` that stops at the
first entry with `client.userId === target`. -/
def findClient (target : String) : List (ConnId × ClientInfo) → Option (ConnId × ClientInfo)
  | [] => none
  | (socketId, client) :: rest =>
    if client.userId = target then some (socketId, client) else findClient target rest

/-- Handler `socket.on('register')`. -/
def onRegister (s : ServerState) (c : ConnId) (userId name : String) :
    ServerState × List Emit :=
  ({ s with clients := mapSet c ⟨userId, name, c⟩ s.clients },
   [Emit.socketEmit c (Msg.registered c)])

/-- Handler `socket.on('join-room')`. -/
def onJoinRoom (s : ServerState) (c : ConnId) (roomId : RoomId) (userId : String) :
    ServerState × List Emit :=
  let sids1 := mapModify c (setAdd roomId) s.sids
  let rooms1 := if mapHas roomId s.rooms then s.rooms else mapSet roomId [] s.rooms
  let rooms2 := mapModify roomId (setAdd c) rooms1
  ({ s with rooms := rooms2, sids := sids1 },
   [Emit.socketTo c roomId (Msg.userJoined userId c),
    Emit.socketEmit c (Msg.joinedRoom roomId ((mapGet roomId rooms2).getD []).length)])

/-- Handler `socket.on('offer')`. -/
def onOffer (s : ServerState) (c : ConnId) (roomId : RoomId) (offer : Payload) :
    ServerState × List Emit :=
  (s, [Emit.socketTo c roomId (Msg.offer offer c)])

/-- Handler `socket.on('answer')`. -/
def onAnswer (s : ServerState) (c : ConnId) (roomId : RoomId) (answer : Payload) :
    ServerState × List Emit :=
  (s, [Emit.socketTo c roomId (Msg.answer answer c)])

/-- Handler `socket.on('ice-candidate')`. -/
def onIceCandidate (s : ServerState) (c : ConnId) (roomId : RoomId) (candidate : Payload) :
    ServerState × List Emit :=
  (s, [Emit.socketTo c roomId (Msg.iceCandidate candidate c)])

/-- The expression `data.callId || socket.id + '-' + Date.now()`; an absent or empty
`callId` is falsy. -/
def callIdOrDefault (c : ConnId) (callId : Option String) (now : Nat) : String :=
  match callId with
  | some v => if v = "" then c ++ "-" ++ toString now else v
  | none => c ++ "-" ++ toString now

/-- Handler `socket.on('initiate-call')`.  `callerInfo = none` stands for a missing
`callerInfo`, on which `callerInfo.name` throws before anything else happens. -/
def onInitiateCall (s : ServerState) (c : ConnId) (targetUserId : String)
    (callerInfo : Option Payload) (callId : Option String) (now : Nat) :
    Option (ServerState × List Emit) :=
  match callerInfo with
  | none => none
  | some info =>
    match findClient targetUserId s.clients with
    | some (socketId, _) =>
      some (s, [Emit.ioTo socketId (Msg.incomingCall info (callIdOrDefault c callId now))])
    | none => some (s, [])

/-- The expression `currentClient?.userId || socket.id`. -/
def callerLabel (s : ServerState) (c : ConnId) : String :=
  match mapGet c s.clients with
  | some currentClient => if currentClient.userId = "" then c else currentClient.userId
  | none => c

/-- Handler `socket.on('call-request')`. -/
def onCallRequest (s : ServerState) (c : ConnId) (target : String) (offer : Payload) :
    ServerState × List Emit :=
  match findClient target s.clients with
  | some (socketId, _) => (s, [Emit.ioTo socketId (Msg.callRequest (callerLabel s c) offer)])
  | none => (s, [Emit.socketEmit c (Msg.callFailed "User not found" target)])

/-- Handler `socket.on('call-response')`. -/
def onCallResponse (s : ServerState) (c : ConnId) (accepted : Bool) (callerId : String)
    (callId : String) : ServerState × List Emit :=
  match findClient callerId s.clients with
  | some (socketId, _) =>
    (s, [Emit.ioTo socketId (Msg.callResponse accepted callId (mapGet c s.clients))])
  | none => (s, [])

/-- Handler `socket.on('end-call')`. -/
def onEndCall (s : ServerState) (c : ConnId) (roomId : RoomId) : ServerState × List Emit :=
  let rooms1 :=
    if mapHas roomId s.rooms then
      let rooms0 := mapModify roomId (setDelete c) s.rooms
      if ((mapGet roomId rooms0).getD []).length = 0 then mapDelete roomId rooms0 else rooms0
    else s.rooms
  ({ s with rooms := rooms1 }, [Emit.socketTo c roomId (Msg.callEnded c)])

/-- The loop over `rooms.entries()` of the `disconnect` handler: the rooms that remain
and the `user-left` broadcasts, in iteration order. -/
def leaveRooms (c : ConnId) : List (RoomId × List ConnId) →
    List (RoomId × List ConnId) × List Emit
  | [] => ([], [])
  | (roomId, participants) :: rest =>
    let out := leaveRooms c rest
    if c ∈ participants then
      let participants1 := setDelete c participants
      if participants1.length = 0 then
        (out.1, Emit.socketTo c roomId (Msg.userLeft c) :: out.2)
      else
        ((roomId, participants1) :: out.1, Emit.socketTo c roomId (Msg.userLeft c) :: out.2)
    else
      ((roomId, participants) :: out.1, out.2)

/-- Handler `socket.on('disconnect')`. -/
def onDisconnect (s : ServerState) (c : ConnId) : ServerState × List Emit :=
  let out := leaveRooms c s.rooms
  ({ s with clients := mapDelete c s.clients, rooms := out.1 }, out.2)

/-- Handler `socket.on('test-connection')`; `timestamp` is `new Date().toISOString()`. -/
def onTestConnection (s : ServerState) (c : ConnId) (timestamp : String) :
    ServerState × List Emit :=
  (s, [Emit.socketEmit c (Msg.testResponse c timestamp)])

/-! ## Events and runs -/

/-- What can happen to a connection: the gateway connects it, one of its handlers
runs on a message, or the gateway reports its disconnection. -/
inductive Event where
  | connect
  | register (userId name : String)
  | joinRoom (roomId : RoomId) (userId : String)
  | offer (roomId : RoomId) (offer : Payload)
  | answer (roomId : RoomId) (answer : Payload)
  | iceCandidate (roomId : RoomId) (candidate : Payload)
  | initiateCall (targetUserId : String) (callerInfo : Option Payload)
      (callId : Option String) (now : Nat)
  | callRequest (target : String) (offer : Payload)
  | callResponse (accepted : Bool) (callerId : String) (callId : String)
  | endCall (roomId : RoomId)
  | disconnect
  | testConnection (timestamp : String)
deriving DecidableEq

/-- The handler that runs on an event of connection `c`.  A new socket enters the room
named by its id; a disconnected socket has left every room before its handler runs. -/
def handle (s : ServerState) (c : ConnId) : Event → Option (ServerState × List Emit)
  | .connect => some ({ s with sids := s.sids ++ [(c, [c])] }, [])
  | .register userId name => some (onRegister s c userId name)
  | .joinRoom roomId userId => some (onJoinRoom s c roomId userId)
  | .offer roomId offer => some (onOffer s c roomId offer)
  | .answer roomId answer => some (onAnswer s c roomId answer)
  | .iceCandidate roomId candidate => some (onIceCandidate s c roomId candidate)
  | .initiateCall targetUserId callerInfo callId now =>
    onInitiateCall s c targetUserId callerInfo callId now
  | .callRequest target offer => some (onCallRequest s c target offer)
  | .callResponse accepted callerId callId => some (onCallResponse s c accepted callerId callId)
  | .endCall roomId => some (onEndCall s c roomId)
  | .disconnect => some (onDisconnect { s with sids := mapDelete c s.sids } c)
  | .testConnection timestamp => some (onTestConnection s c timestamp)

/-- Whether the event can occur: socket ids of live connections are distinct, and only
a live connection has handlers. -/
def enabled (s : ServerState) (c : ConnId) : Event → Bool
  | .connect => !connected s c
  | _ => connected s c

/-- One step of the server; `none` when the event cannot occur or the handler throws. -/
def step (s : ServerState) (c : ConnId) (e : Event) : Option (ServerState × List Emit) :=
  if enabled s c e then handle s c e else none

/-- State after a sequence of events, each tagged with its connection. -/
def run (s : ServerState) : List (ConnId × Event) → Option ServerState
  | [] => some s
  | (c, e) :: rest =>
    match step s c e with
    | some out => run out.1 rest
    | none => none

/-- States the server can be in. -/
def Reachable (s : ServerState) : Prop :=
  ∃ tr, run init tr = some s

/-! ## Delivery by the gateway -/

/-- Sockets in room `room` of the gateway. -/
def socketsIn (sids : List (ConnId × List RoomId)) (room : RoomId) : List ConnId :=
  (sids.filter (fun p => decide (room ∈ p.2))).map Prod.fst

/-- Who receives what from one send: `socket.emit` reaches the socket, `socket.to(room)`
the sockets in gateway room `room` other than the sender, `io.to(room)` the sockets in
gateway room `room`. -/
def deliver (sids : List (ConnId × List RoomId)) : Emit → List (ConnId × Msg)
  | .socketEmit c m => [(c, m)]
  | .socketTo c room m =>
    ((socketsIn sids room).filter (fun d => decide (d ≠ c))).map (fun d => (d, m))
  | .ioTo room m => (socketsIn sids room).map (fun d => (d, m))

/-- Who receives what from the sends of one handler run. -/
def deliverAll (sids : List (ConnId × List RoomId)) (emits : List Emit) : List (ConnId × Msg) :=
  emits.flatMap (deliver sids)

/-! ## Invariants and bookkeeping over runs -/

/-- Consistency of a state: keys of the two tables are distinct, no room of the Room
Store is empty, and a member of a room of the Room Store is in the gateway room of the
same name. -/
structure WF (s : ServerState) : Prop where
  roomKeys : (s.rooms.map Prod.fst).Nodup
  roomNonempty : ∀ p ∈ s.rooms, p.2 ≠ []
  sidKeys : (s.sids.map Prod.fst).Nodup
  memberInGateway : ∀ r d, d ∈ members s r → r ∈ socketRooms s d

/-- Whether connection `c` counts as a member of room `r` after event `e` of connection
`d`, given whether it did before: `join-room` for `r` makes it one, `end-call` for `r`
and `disconnect` end it. -/
def roomBit (c : ConnId) (r : RoomId) (b : Bool) (d : ConnId) : Event → Bool
  | .joinRoom r' _ => if d = c ∧ r' = r then true else b
  | .endCall r' => if d = c ∧ r' = r then false else b
  | .disconnect => if d = c then false else b
  | _ => b

/-- Whether `c` has joined `r` and not left it since, after a sequence of events. -/
def inRoomAfter (c : ConnId) (r : RoomId) : Bool → List (ConnId × Event) → Bool
  | b, [] => b
  | b, (d, e) :: rest => inRoomAfter c r (roomBit c r b d e) rest

/-- Whether connection `c` has sent `join-room` for `r` since it connected, after event
`e` of connection `d`, given whether it had before. -/
def joinedBit (c : ConnId) (r : RoomId) (b : Bool) (d : ConnId) : Event → Bool
  | .connect => if d = c then false else b
  | .joinRoom r' _ => if d = c ∧ r' = r then true else b
  | .disconnect => if d = c then false else b
  | _ => b

/-- Whether `c` has sent `join-room` for `r` since it connected, after a sequence of events. -/
def joinedSinceConnect (c : ConnId) (r : RoomId) : Bool → List (ConnId × Event) → Bool
  | b, [] => b
  | b, (d, e) :: rest => joinedSinceConnect c r (joinedBit c r b d e) rest

/-! ## Lemmas on maps and sets -/

theorem mapHas_eq_isSome {V : Type} (k : String) (m : List (String × V)) :
    mapHas k m = (mapGet k m).isSome := by
  induction m with
  | nil => rfl
  | cons p rest ih =>
    obtain ⟨k', v⟩ := p
    by_cases h : k' = k <;> simp [mapHas, mapGet, h, ih]

theorem mapHas_iff_mem_keys {V : Type} (k : String) (m : List (String × V)) :
    mapHas k m = true ↔ k ∈ m.map Prod.fst := by
  induction m with
  | nil => simp [mapHas]
  | cons p rest ih =>
    obtain ⟨k', v⟩ := p
    by_cases h : k' = k
    · simp [mapHas, h]
    · have h' : ¬ k = k' := fun e => h e.symm
      simp [mapHas, h, h', ih]

theorem mapGet_mapSet_self {V : Type} (k : String) (v : V) (m : List (String × V)) :
    mapGet k (mapSet k v m) = some v := by
  induction m with
  | nil => simp [mapSet, mapGet]
  | cons p rest ih =>
    obtain ⟨k', v'⟩ := p
    by_cases h : k' = k <;> simp [mapSet, mapGet, h, ih]

theorem mapGet_mapSet_ne {V : Type} (k k' : String) (v : V) (m : List (String × V)) (hne : k' ≠ k) :
    mapGet k' (mapSet k v m) = mapGet k' m := by
  induction m with
  | nil => simp [mapSet, mapGet, Ne.symm hne]
  | cons p rest ih =>
    obtain ⟨k0, v0⟩ := p
    by_cases h : k0 = k
    · subst h
      simp [mapSet, mapGet, Ne.symm hne]
    · by_cases h2 : k0 = k'
      · subst h2
        simp [mapSet, mapGet, h]
      · simp [mapSet, mapGet, h, h2, ih]

theorem mapGet_mapModify_self {V : Type} (k : String) (f : V → V) (m : List (String × V)) :
    mapGet k (mapModify k f m) = (mapGet k m).map f := by
  induction m with
  | nil => simp [mapModify, mapGet]
  | cons p rest ih =>
    obtain ⟨k', v'⟩ := p
    by_cases h : k' = k <;> simp [mapModify, mapGet, h, ih]

theorem mapGet_mapModify_ne {V : Type} (k k' : String) (f : V → V) (m : List (String × V))
    (hne : k' ≠ k) : mapGet k' (mapModify k f m) = mapGet k' m := by
  induction m with
  | nil => simp [mapModify, mapGet]
  | cons p rest ih =>
    obtain ⟨k0, v0⟩ := p
    by_cases h : k0 = k
    · subst h
      simp [mapModify, mapGet, Ne.symm hne]
    · by_cases h2 : k0 = k'
      · subst h2
        simp [mapModify, mapGet, h]
      · simp [mapModify, mapGet, h, h2, ih]

theorem mapGet_mapDelete_self {V : Type} (k : String) (m : List (String × V)) :
    mapGet k (mapDelete k m) = none := by
  induction m with
  | nil => simp [mapDelete, mapGet]
  | cons p rest ih =>
    obtain ⟨k', v'⟩ := p
    by_cases h : k' = k <;> simp [mapDelete, mapGet, h, ih]

theorem mapGet_mapDelete_ne {V : Type} (k k' : String) (m : List (String × V)) (hne : k' ≠ k) :
    mapGet k' (mapDelete k m) = mapGet k' m := by
  induction m with
  | nil => simp [mapDelete, mapGet]
  | cons p rest ih =>
    obtain ⟨k0, v0⟩ := p
    by_cases h : k0 = k
    · subst h
      simp [mapDelete, mapGet, Ne.symm hne, ih]
    · by_cases h2 : k0 = k'
      · subst h2
        simp [mapDelete, mapGet, h]
      · simp [mapDelete, mapGet, h, h2, ih]

theorem keys_mapSet {V : Type} (k : String) (v : V) (m : List (String × V)) :
    (mapSet k v m).map Prod.fst =
      if mapHas k m then m.map Prod.fst else m.map Prod.fst ++ [k] := by
  induction m with
  | nil => simp [mapSet, mapHas]
  | cons p rest ih =>
    obtain ⟨k', v'⟩ := p
    by_cases h : k' = k
    · simp [mapSet, mapHas, h]
    · by_cases h2 : mapHas k rest = true <;> simp [mapSet, mapHas, h, ih, h2]

theorem keys_mapModify {V : Type} (k : String) (f : V → V) (m : List (String × V)) :
    (mapModify k f m).map Prod.fst = m.map Prod.fst := by
  induction m with
  | nil => simp [mapModify]
  | cons p rest ih =>
    obtain ⟨k', v'⟩ := p
    by_cases h : k' = k <;> simp [mapModify, h, ih]

theorem keys_mapDelete {V : Type} (k : String) (m : List (String × V)) :
    (mapDelete k m).map Prod.fst = (m.map Prod.fst).filter (fun x => decide (x ≠ k)) := by
  induction m with
  | nil => simp [mapDelete]
  | cons p rest ih =>
    obtain ⟨k', v'⟩ := p
    by_cases h : k' = k <;> simp [mapDelete, List.filter_cons, h, ih]

theorem mapGet_of_mem_nodup {V : Type} (m : List (String × V)) (hnd : (m.map Prod.fst).Nodup)
    (k : String) (v : V) (hmem : (k, v) ∈ m) : mapGet k m = some v := by
  induction m with
  | nil => simp at hmem
  | cons p rest ih =>
    obtain ⟨k', v'⟩ := p
    simp only [List.map_cons, List.nodup_cons] at hnd
    rcases List.mem_cons.mp hmem with heq | hin
    · cases heq
      simp [mapGet]
    · have hk : k' ≠ k := by
        intro e
        subst e
        exact hnd.1 (List.mem_map.mpr ⟨(k', v), hin, rfl⟩)
      simp [mapGet, hk, ih hnd.2 hin]

theorem mem_of_mapGet {V : Type} (m : List (String × V)) (k : String) (v : V)
    (h : mapGet k m = some v) : (k, v) ∈ m := by
  induction m with
  | nil => simp [mapGet] at h
  | cons p rest ih =>
    obtain ⟨k', v'⟩ := p
    by_cases hk : k' = k
    · simp [mapGet, hk] at h
      simp [hk, h]
    · simp [mapGet, hk] at h
      exact List.mem_cons_of_mem _ (ih h)

theorem mem_setAdd (x y : String) (s : List String) :
    y ∈ setAdd x s ↔ y = x ∨ y ∈ s := by
  unfold setAdd
  by_cases h : x ∈ s
  · simp only [h, if_true]
    constructor
    · exact Or.inr
    · rintro (rfl | h') <;> assumption
  · simp [h, or_comm]

theorem mem_setDelete (x y : String) (s : List String) :
    y ∈ setDelete x s ↔ y ∈ s ∧ y ≠ x := by
  simp [setDelete]

theorem nodup_setAdd (x : String) (s : List String) (h : s.Nodup) : (setAdd x s).Nodup := by
  unfold setAdd
  by_cases hx : x ∈ s
  · simpa [hx] using h
  · simp only [hx, if_false]
    exact List.Nodup.append h (List.nodup_singleton x) (by simpa using hx)

/-! ## Lemmas on the first-match lookup -/

theorem findClient_eq_none_iff (t : String) (m : List (ConnId × ClientInfo)) :
    findClient t m = none ↔ ∀ p ∈ m, p.2.userId ≠ t := by
  induction m with
  | nil => simp [findClient]
  | cons p rest ih =>
    obtain ⟨sid, cl⟩ := p
    by_cases h : cl.userId = t <;> simp [findClient, h, ih]

theorem findClient_of_split (t : String) (pre post : List (ConnId × ClientInfo))
    (sid : ConnId) (cl : ClientInfo) (ht : cl.userId = t)
    (hpre : ∀ p ∈ pre, p.2.userId ≠ t) :
    findClient t (pre ++ (sid, cl) :: post) = some (sid, cl) := by
  induction pre with
  | nil => simp [findClient, ht]
  | cons p rest ih =>
    obtain ⟨sid0, cl0⟩ := p
    have h0 : cl0.userId ≠ t := hpre (sid0, cl0) (List.mem_cons_self _ _)
    have hrest : ∀ p ∈ rest, p.2.userId ≠ t :=
      fun p hp => hpre p (List.mem_cons_of_mem _ hp)
    simp [findClient, h0, ih hrest]

theorem findClient_split (t : String) (m : List (ConnId × ClientInfo))
    (sid : ConnId) (cl : ClientInfo) (h : findClient t m = some (sid, cl)) :
    ∃ pre post, m = pre ++ (sid, cl) :: post ∧ cl.userId = t ∧
      ∀ p ∈ pre, p.2.userId ≠ t := by
  induction m with
  | nil => simp [findClient] at h
  | cons p rest ih =>
    obtain ⟨sid0, cl0⟩ := p
    by_cases h0 : cl0.userId = t
    · simp [findClient, h0] at h
      obtain ⟨rfl, rfl⟩ := h
      exact ⟨[], rest, rfl, h0, by simp⟩
    · simp [findClient, h0] at h
      obtain ⟨pre, post, hm, ht, hpre⟩ := ih h
      refine ⟨(sid0, cl0) :: pre, post, by simp [hm], ht, ?_⟩
      intro p hp
      rcases List.mem_cons.mp hp with rfl | hp'
      · exact h0
      · exact hpre p hp'

theorem findClient_exists (t : String) (m : List (ConnId × ClientInfo))
    (h : ∃ p ∈ m, p.2.userId = t) : ∃ sid cl, findClient t m = some (sid, cl) := by
  cases hf : findClient t m with
  | none =>
    obtain ⟨p, hp, hpt⟩ := h
    exact absurd hpt ((findClient_eq_none_iff t m).mp hf p hp)
  | some q => exact ⟨q.1, q.2, rfl⟩

/-! ## Effect of the handlers on the Room Store -/

theorem members_onJoinRoom (s : ServerState) (c : ConnId) (r : RoomId) (userId : String) :
    members (onJoinRoom s c r userId).1 r = setAdd c (members s r) := by
  unfold members onJoinRoom
  simp only
  rw [mapGet_mapModify_self]
  by_cases h : mapHas r s.rooms = true
  · rw [if_pos h]
    rw [mapHas_eq_isSome] at h
    cases hg : mapGet r s.rooms with
    | none => simp [hg] at h
    | some v => simp
  · rw [if_neg h, mapGet_mapSet_self]
    have h' : mapGet r s.rooms = none := by
      rw [mapHas_eq_isSome] at h
      cases hg : mapGet r s.rooms with
      | none => rfl
      | some v => simp [hg] at h
    simp [h']

theorem mapGet_onJoinRoom_ne (s : ServerState) (c : ConnId) (r r' : RoomId) (userId : String)
    (hne : r' ≠ r) : mapGet r' (onJoinRoom s c r userId).1.rooms = mapGet r' s.rooms := by
  unfold onJoinRoom
  simp only
  rw [mapGet_mapModify_ne _ _ _ _ hne]
  by_cases h : mapHas r s.rooms = true
  · rw [if_pos h]
  · rw [if_neg h]
    exact mapGet_mapSet_ne r r' _ s.rooms hne

theorem mapHas_onJoinRoom (s : ServerState) (c : ConnId) (r : RoomId) (userId : String) :
    mapHas r (onJoinRoom s c r userId).1.rooms = true := by
  rw [mapHas_iff_mem_keys]
  unfold onJoinRoom
  simp only
  rw [keys_mapModify]
  by_cases h : mapHas r s.rooms = true
  · rw [if_pos h]
    exact (mapHas_iff_mem_keys r s.rooms).mp h
  · rw [if_neg h, keys_mapSet]
    simp [h]

theorem mapGet_append_of_not_has {V : Type} (k c : String) (v : V) (m : List (String × V))
    (h : mapHas c m = false) :
    mapGet k (m ++ [(c, v)]) = if k = c then some v else mapGet k m := by
  induction m with
  | nil =>
    by_cases hk : k = c
    · simp [mapGet, hk]
    · simp [mapGet, hk, Ne.symm hk]
  | cons p rest ih =>
    obtain ⟨k0, v0⟩ := p
    by_cases h0 : k0 = c
    · simp [mapHas, h0] at h
    · simp only [mapHas, h0, if_false] at h
      by_cases hk0 : k0 = k
      · subst hk0
        simp [mapGet, h0]
      · simp [mapGet, hk0, ih h]

theorem mapSet_of_not_has {V : Type} (k : String) (v : V) (m : List (String × V))
    (h : mapHas k m = false) : mapSet k v m = m ++ [(k, v)] := by
  induction m with
  | nil => rfl
  | cons p rest ih =>
    obtain ⟨k0, v0⟩ := p
    by_cases h0 : k0 = k
    · simp [mapHas, h0] at h
    · simp only [mapHas, h0, if_false] at h
      simp [mapSet, h0, ih h]

theorem mem_mapModify {V : Type} (k : String) (f : V → V) (m : List (String × V))
    (p : String × V) (h : p ∈ mapModify k f m) : p ∈ m ∨ ∃ v, p.2 = f v := by
  induction m with
  | nil => simp [mapModify] at h
  | cons q rest ih =>
    obtain ⟨k0, v0⟩ := q
    by_cases h0 : k0 = k
    · simp only [mapModify, h0, if_true] at h
      rcases List.mem_cons.mp h with rfl | hin
      · exact Or.inr ⟨v0, rfl⟩
      · exact Or.inl (List.mem_cons_of_mem _ hin)
    · simp only [mapModify, h0, if_false] at h
      rcases List.mem_cons.mp h with rfl | hin
      · exact Or.inl (List.mem_cons_self _ _)
      · rcases ih hin with h1 | h1
        · exact Or.inl (List.mem_cons_of_mem _ h1)
        · exact Or.inr h1

theorem mem_mapSet {V : Type} (k : String) (v : V) (m : List (String × V))
    (p : String × V) (h : p ∈ mapSet k v m) : p ∈ m ∨ p = (k, v) := by
  induction m with
  | nil =>
    simp [mapSet] at h
    exact Or.inr h
  | cons q rest ih =>
    obtain ⟨k0, v0⟩ := q
    by_cases h0 : k0 = k
    · simp only [mapSet, h0, if_true] at h
      rcases List.mem_cons.mp h with rfl | hin
      · exact Or.inr rfl
      · exact Or.inl (List.mem_cons_of_mem _ hin)
    · simp only [mapSet, h0, if_false] at h
      rcases List.mem_cons.mp h with rfl | hin
      · exact Or.inl (List.mem_cons_self _ _)
      · rcases ih hin with h1 | h1
        · exact Or.inl (List.mem_cons_of_mem _ h1)
        · exact Or.inr h1

theorem mem_mapDelete {V : Type} (k : String) (m : List (String × V))
    (p : String × V) (h : p ∈ mapDelete k m) : p ∈ m := by
  induction m with
  | nil => simp [mapDelete] at h
  | cons q rest ih =>
    obtain ⟨k0, v0⟩ := q
    by_cases h0 : k0 = k
    · simp only [mapDelete, h0, if_true] at h
      exact List.mem_cons_of_mem _ (ih h)
    · simp only [mapDelete, h0, if_false] at h
      rcases List.mem_cons.mp h with rfl | hin
      · exact List.mem_cons_self _ _
      · exact List.mem_cons_of_mem _ (ih hin)

theorem setAdd_ne_nil (x : String) (s : List String) : setAdd x s ≠ [] := by
  unfold setAdd
  by_cases h : x ∈ s
  · simp only [h, if_true]
    intro e
    simp [e] at h
  · simp [h]

theorem members_of_not_has (s : ServerState) (r : RoomId) (h : mapHas r s.rooms = false) :
    members s r = [] := by
  rw [mapHas_eq_isSome] at h
  unfold members
  cases hg : mapGet r s.rooms with
  | none => rfl
  | some v => simp [hg] at h

theorem members_onJoinRoom_ne (s : ServerState) (c : ConnId) (r r' : RoomId)
    (userId : String) (hne : r' ≠ r) : members (onJoinRoom s c r userId).1 r' = members s r' := by
  unfold members
  rw [mapGet_onJoinRoom_ne s c r r' userId hne]

theorem members_onEndCall (s : ServerState) (c : ConnId) (r : RoomId) :
    members (onEndCall s c r).1 r = setDelete c (members s r) := by
  by_cases h : mapHas r s.rooms = true
  · have hg : mapGet r (mapModify r (setDelete c) s.rooms)
        = (mapGet r s.rooms).map (setDelete c) := mapGet_mapModify_self r _ s.rooms
    unfold members onEndCall
    simp only
    rw [if_pos h, hg]
    by_cases hl : ((Option.map (setDelete c) (mapGet r s.rooms)).getD []).length = 0
    · rw [if_pos hl, mapGet_mapDelete_self]
      have := List.length_eq_zero.mp hl
      cases hq : mapGet r s.rooms with
      | none => simp [setDelete]
      | some v => simpa [hq] using this.symm
    · rw [if_neg hl, hg]
      cases hq : mapGet r s.rooms with
      | none => simp [setDelete]
      | some v => simp
  · have h' : mapHas r s.rooms = false := by simpa using h
    have hm := members_of_not_has s r h'
    unfold members at hm ⊢
    unfold onEndCall
    simp only
    rw [if_neg h, hm]
    simp [setDelete]

theorem mapGet_onEndCall_ne (s : ServerState) (c : ConnId) (r r' : RoomId) (hne : r' ≠ r) :
    mapGet r' (onEndCall s c r).1.rooms = mapGet r' s.rooms := by
  unfold onEndCall
  simp only
  by_cases h : mapHas r s.rooms = true
  · rw [if_pos h]
    by_cases hl : ((mapGet r (mapModify r (setDelete c) s.rooms)).getD []).length = 0
    · rw [if_pos hl, mapGet_mapDelete_ne _ _ _ hne, mapGet_mapModify_ne _ _ _ _ hne]
    · rw [if_neg hl, mapGet_mapModify_ne _ _ _ _ hne]
  · rw [if_neg h]

theorem members_onEndCall_ne (s : ServerState) (c : ConnId) (r r' : RoomId) (hne : r' ≠ r) :
    members (onEndCall s c r).1 r' = members s r' := by
  unfold members
  rw [mapGet_onEndCall_ne s c r r' hne]

/-! ### The loop of the `disconnect` handler -/

theorem leaveRooms_emits (c : ConnId) (rooms : List (RoomId × List ConnId)) :
    (leaveRooms c rooms).2 =
      (rooms.filter (fun p => decide (c ∈ p.2))).map
        (fun p => Emit.socketTo c p.1 (Msg.userLeft c)) := by
  induction rooms with
  | nil => rfl
  | cons p rest ih =>
    obtain ⟨r0, ps⟩ := p
    by_cases hc : c ∈ ps
    · by_cases hl : (setDelete c ps).length = 0 <;>
        simp [leaveRooms, hc, hl, ih, List.filter_cons]
    · simp [leaveRooms, hc, ih, List.filter_cons]

theorem mapGet_eq_none_of_not_mem_keys {V : Type} (k : String) (m : List (String × V))
    (h : k ∉ m.map Prod.fst) : mapGet k m = none := by
  have h1 : mapHas k m = false := by
    cases hh : mapHas k m with
    | false => rfl
    | true => exact absurd ((mapHas_iff_mem_keys k m).mp hh) h
  rw [mapHas_eq_isSome] at h1
  cases hg : mapGet k m with
  | none => rfl
  | some v => simp [hg] at h1

theorem keys_leaveRooms (c : ConnId) (rooms : List (RoomId × List ConnId)) :
    ((leaveRooms c rooms).1.map Prod.fst).Sublist (rooms.map Prod.fst) := by
  induction rooms with
  | nil => simp [leaveRooms]
  | cons p rest ih =>
    obtain ⟨r0, ps⟩ := p
    by_cases hc : c ∈ ps
    · by_cases hl : (setDelete c ps).length = 0
      · simp only [leaveRooms, hc, hl, if_true, List.map_cons]
        exact List.Sublist.cons _ ih
      · simp only [leaveRooms, hc, hl, if_true, if_false, List.map_cons]
        exact List.Sublist.cons₂ _ ih
    · simp only [leaveRooms, hc, if_false, List.map_cons]
      exact List.Sublist.cons₂ _ ih

theorem leaveRooms_nonempty (c : ConnId) (rooms : List (RoomId × List ConnId))
    (h : ∀ q ∈ rooms, q.2 ≠ []) : ∀ p ∈ (leaveRooms c rooms).1, p.2 ≠ [] := by
  induction rooms with
  | nil => simp [leaveRooms]
  | cons q rest ih =>
    obtain ⟨r0, ps⟩ := q
    have hrest : ∀ q ∈ rest, q.2 ≠ [] := fun q hq => h q (List.mem_cons_of_mem _ hq)
    have hps : ps ≠ [] := h (r0, ps) (List.mem_cons_self _ _)
    intro p hp
    by_cases hc : c ∈ ps
    · by_cases hl : (setDelete c ps).length = 0
      · simp only [leaveRooms, hc, hl, if_true] at hp
        exact ih hrest p hp
      · simp only [leaveRooms, hc, hl, if_true, if_false] at hp
        rcases List.mem_cons.mp hp with rfl | hin
        · intro e
          have e' : setDelete c ps = [] := e
          exact hl (by rw [e']; rfl)
        · exact ih hrest p hin
    · simp only [leaveRooms, hc, if_false] at hp
      rcases List.mem_cons.mp hp with rfl | hin
      · exact hps
      · exact ih hrest p hin

theorem leaveRooms_not_mem (c : ConnId) (rooms : List (RoomId × List ConnId)) :
    ∀ p ∈ (leaveRooms c rooms).1, c ∉ p.2 := by
  induction rooms with
  | nil => simp [leaveRooms]
  | cons q rest ih =>
    obtain ⟨r0, ps⟩ := q
    intro p hp
    by_cases hc : c ∈ ps
    · by_cases hl : (setDelete c ps).length = 0
      · simp only [leaveRooms, hc, hl, if_true] at hp
        exact ih p hp
      · simp only [leaveRooms, hc, hl, if_true, if_false] at hp
        rcases List.mem_cons.mp hp with rfl | hin
        · simp [mem_setDelete]
        · exact ih p hin
    · simp only [leaveRooms, hc, if_false] at hp
      rcases List.mem_cons.mp hp with rfl | hin
      · exact hc
      · exact ih p hin

theorem setDelete_of_not_mem (c : ConnId) (ps : List ConnId) (h : c ∉ ps) :
    setDelete c ps = ps := by
  unfold setDelete
  rw [List.filter_eq_self]
  intro a ha
  have : a ≠ c := fun e => h (e ▸ ha)
  simpa using this

theorem mapGet_leaveRooms (c : ConnId) (rooms : List (RoomId × List ConnId))
    (hnd : (rooms.map Prod.fst).Nodup) (r : RoomId) :
    (mapGet r (leaveRooms c rooms).1).getD [] = setDelete c ((mapGet r rooms).getD []) := by
  induction rooms with
  | nil => simp [leaveRooms, mapGet, setDelete]
  | cons q rest ih =>
    obtain ⟨r0, ps⟩ := q
    simp only [List.map_cons, List.nodup_cons] at hnd
    have ih' := ih hnd.2
    by_cases hr : r0 = r
    · subst hr
      have hnone : mapGet r0 (leaveRooms c rest).1 = none :=
        mapGet_eq_none_of_not_mem_keys r0 _ (fun hm => hnd.1 ((keys_leaveRooms c rest).subset hm))
      by_cases hc : c ∈ ps
      · by_cases hl : (setDelete c ps).length = 0
        · simp only [leaveRooms, hc, hl, if_true, mapGet, hnone, Option.getD_none,
            Option.getD_some]
          exact (List.length_eq_zero.mp hl).symm
        · simp [leaveRooms, hc, hl, mapGet]
      · simp [leaveRooms, hc, mapGet, setDelete_of_not_mem c ps hc]
    · by_cases hc : c ∈ ps
      · by_cases hl : (setDelete c ps).length = 0
        · simpa [leaveRooms, hc, hl, mapGet, hr] using ih'
        · simpa [leaveRooms, hc, hl, mapGet, hr] using ih'
      · simpa [leaveRooms, hc, mapGet, hr] using ih'

theorem count_leaveRooms (c : ConnId) (rooms : List (RoomId × List ConnId))
    (hnd : (rooms.map Prod.fst).Nodup) (r : RoomId) :
    (leaveRooms c rooms).2.count (Emit.socketTo c r (Msg.userLeft c)) =
      if c ∈ (mapGet r rooms).getD [] then 1 else 0 := by
  induction rooms with
  | nil => simp [leaveRooms, mapGet]
  | cons q rest ih =>
    obtain ⟨r0, ps⟩ := q
    simp only [List.map_cons, List.nodup_cons] at hnd
    have ih' := ih hnd.2
    by_cases hr : r0 = r
    · subst hr
      have hnone : mapGet r0 rest = none := mapGet_eq_none_of_not_mem_keys r0 _ hnd.1
      rw [hnone] at ih'
      simp only [Option.getD_none, List.not_mem_nil, if_false] at ih'
      by_cases hc : c ∈ ps
      · by_cases hl : (setDelete c ps).length = 0 <;>
          simp [leaveRooms, hc, hl, mapGet, ih']
      · simp [leaveRooms, hc, mapGet, ih']
    · have hne : Emit.socketTo c r0 (Msg.userLeft c) ≠ Emit.socketTo c r (Msg.userLeft c) := by
        intro e
        injection e with _ e2 _
        exact hr e2
      by_cases hc : c ∈ ps
      · by_cases hl : (setDelete c ps).length = 0 <;>
          simp [leaveRooms, hc, hl, mapGet, hr, ih', List.count_cons, hne]
      · simp [leaveRooms, hc, mapGet, hr, ih']

theorem members_onDisconnect (s : ServerState) (c : ConnId)
    (hnd : (s.rooms.map Prod.fst).Nodup) (r : RoomId) :
    members (onDisconnect s c).1 r = setDelete c (members s r) := by
  unfold members onDisconnect
  exact mapGet_leaveRooms c s.rooms hnd r

/-! ## Effect of one step on the three tables -/

theorem onInitiateCall_state (s : ServerState) (d : ConnId) (t : String)
    (info : Option Payload) (callId : Option String) (now : Nat)
    (out : ServerState × List Emit) (h : onInitiateCall s d t info callId now = some out) :
    out.1 = s := by
  unfold onInitiateCall at h
  cases info with
  | none => simp at h
  | some v =>
    cases hf : findClient t s.clients with
    | none =>
      simp [hf] at h
      rw [← h]
    | some q =>
      simp [hf] at h
      rw [← h]

theorem onCallRequest_state (s : ServerState) (d : ConnId) (t : String) (offer : Payload) :
    (onCallRequest s d t offer).1 = s := by
  unfold onCallRequest
  cases hf : findClient t s.clients <;> rfl

theorem onCallResponse_state (s : ServerState) (d : ConnId) (a : Bool) (t callId : String) :
    (onCallResponse s d a t callId).1 = s := by
  unfold onCallResponse
  cases hf : findClient t s.clients <;> rfl

theorem handle_rooms (s : ServerState) (d : ConnId) (e : Event)
    (out : ServerState × List Emit) : handle s d e = some out →
    out.1.rooms = match e with
      | .joinRoom r u => (onJoinRoom s d r u).1.rooms
      | .endCall r => (onEndCall s d r).1.rooms
      | .disconnect => (leaveRooms d s.rooms).1
      | _ => s.rooms := by
  intro h
  cases e with
  | initiateCall t info callId now =>
    simp only [handle] at h
    rw [onInitiateCall_state s d t info callId now out h]
  | callRequest t offer =>
    simp only [handle, Option.some.injEq] at h
    rw [← h, onCallRequest_state]
  | callResponse a t callId =>
    simp only [handle, Option.some.injEq] at h
    rw [← h, onCallResponse_state]
  | _ =>
    simp only [handle, Option.some.injEq] at h
    subst h
    rfl

theorem handle_sids (s : ServerState) (d : ConnId) (e : Event)
    (out : ServerState × List Emit) : handle s d e = some out →
    out.1.sids = match e with
      | .connect => s.sids ++ [(d, [d])]
      | .joinRoom r _ => mapModify d (setAdd r) s.sids
      | .disconnect => mapDelete d s.sids
      | _ => s.sids := by
  intro h
  cases e with
  | initiateCall t info callId now =>
    simp only [handle] at h
    rw [onInitiateCall_state s d t info callId now out h]
  | callRequest t offer =>
    simp only [handle, Option.some.injEq] at h
    rw [← h, onCallRequest_state]
  | callResponse a t callId =>
    simp only [handle, Option.some.injEq] at h
    rw [← h, onCallResponse_state]
  | _ =>
    simp only [handle, Option.some.injEq] at h
    subst h
    rfl

theorem handle_clients (s : ServerState) (d : ConnId) (e : Event)
    (out : ServerState × List Emit) : handle s d e = some out →
    out.1.clients = match e with
      | .register u n => mapSet d ⟨u, n, d⟩ s.clients
      | .disconnect => mapDelete d s.clients
      | _ => s.clients := by
  intro h
  cases e with
  | initiateCall t info callId now =>
    simp only [handle] at h
    rw [onInitiateCall_state s d t info callId now out h]
  | callRequest t offer =>
    simp only [handle, Option.some.injEq] at h
    rw [← h, onCallRequest_state]
  | callResponse a t callId =>
    simp only [handle, Option.some.injEq] at h
    rw [← h, onCallResponse_state]
  | _ =>
    simp only [handle, Option.some.injEq] at h
    subst h
    rfl

theorem step_some (s : ServerState) (d : ConnId) (e : Event)
    (out : ServerState × List Emit) (h : step s d e = some out) :
    enabled s d e = true ∧ handle s d e = some out := by
  unfold step at h
  by_cases he : enabled s d e = true
  · rw [if_pos he] at h
    exact ⟨he, h⟩
  · rw [if_neg he] at h
    simp at h

/-- Member sets after one step. -/
theorem members_step (s : ServerState) (hnd : (s.rooms.map Prod.fst).Nodup) (d : ConnId)
    (e : Event) (out : ServerState × List Emit) (r : RoomId) : handle s d e = some out →
    members out.1 r = match e with
      | .joinRoom r' _ => if r' = r then setAdd d (members s r) else members s r
      | .endCall r' => if r' = r then setDelete d (members s r) else members s r
      | .disconnect => setDelete d (members s r)
      | _ => members s r := by
  intro h
  have hr := handle_rooms s d e out h
  cases e with
  | joinRoom r' u =>
    simp only at hr
    by_cases hrr : r' = r
    · subst hrr
      simp only [if_true]
      rw [← members_onJoinRoom s d r' u]
      unfold members
      rw [hr]
    · simp only [hrr, if_false]
      rw [← members_onJoinRoom_ne s d r' r u (Ne.symm hrr)]
      unfold members
      rw [hr]
  | endCall r' =>
    simp only at hr
    by_cases hrr : r' = r
    · subst hrr
      simp only [if_true]
      rw [← members_onEndCall s d r']
      unfold members
      rw [hr]
    · simp only [hrr, if_false]
      rw [← members_onEndCall_ne s d r' r (Ne.symm hrr)]
      unfold members
      rw [hr]
  | disconnect =>
    simp only at hr
    unfold members
    rw [hr]
    exact mapGet_leaveRooms d s.rooms hnd r
  | _ =>
    simp only at hr
    unfold members
    rw [hr]

/-- Gateway rooms of each socket after one step. -/
theorem socketRooms_step (s : ServerState) (d : ConnId) (e : Event)
    (out : ServerState × List Emit) (c : ConnId) : step s d e = some out →
    socketRooms out.1 c = match e with
      | .connect => if c = d then [d] else socketRooms s c
      | .joinRoom r _ => if c = d then setAdd r (socketRooms s c) else socketRooms s c
      | .disconnect => if c = d then [] else socketRooms s c
      | _ => socketRooms s c := by
  intro h
  obtain ⟨hen, hh⟩ := step_some s d e out h
  have hs := handle_sids s d e out hh
  cases e with
  | connect =>
    simp only at hs
    have hnc : mapHas d s.sids = false := by simpa [enabled, connected] using hen
    unfold socketRooms
    rw [hs, mapGet_append_of_not_has c d [d] s.sids hnc]
    by_cases hcd : c = d <;> simp [hcd]
  | joinRoom r u =>
    simp only at hs
    have hc : mapHas d s.sids = true := by simpa [enabled, connected] using hen
    unfold socketRooms
    rw [hs]
    by_cases hcd : c = d
    · subst hcd
      rw [mapGet_mapModify_self]
      rw [mapHas_eq_isSome] at hc
      cases hg : mapGet c s.sids with
      | none => simp [hg] at hc
      | some v => simp
    · rw [mapGet_mapModify_ne _ _ _ _ hcd]
      simp [hcd]
  | disconnect =>
    simp only at hs
    unfold socketRooms
    rw [hs]
    by_cases hcd : c = d
    · subst hcd
      rw [mapGet_mapDelete_self]
      simp
    · rw [mapGet_mapDelete_ne _ _ _ hcd]
      simp [hcd]
  | _ =>
    simp only at hs
    unfold socketRooms
    rw [hs]

/-- Connected sockets after one step. -/
theorem connected_step (s : ServerState) (d : ConnId) (e : Event)
    (out : ServerState × List Emit) (c : ConnId) : step s d e = some out →
    connected out.1 c = match e with
      | .connect => if c = d then true else connected s c
      | .disconnect => if c = d then false else connected s c
      | _ => connected s c := by
  intro h
  obtain ⟨hen, hh⟩ := step_some s d e out h
  have hs := handle_sids s d e out hh
  cases e with
  | connect =>
    simp only at hs
    have hnc : mapHas d s.sids = false := by simpa [enabled, connected] using hen
    unfold connected
    rw [mapHas_eq_isSome, mapHas_eq_isSome, hs, mapGet_append_of_not_has c d [d] s.sids hnc]
    by_cases hcd : c = d <;> simp [hcd]
  | joinRoom r u =>
    simp only at hs
    unfold connected
    rw [hs]
    have h1 := (mapHas_iff_mem_keys c (mapModify d (setAdd r) s.sids))
    have h2 := (mapHas_iff_mem_keys c s.sids)
    rw [keys_mapModify] at h1
    exact Bool.eq_iff_iff.mpr (h1.trans h2.symm)
  | disconnect =>
    simp only at hs
    unfold connected
    rw [mapHas_eq_isSome, mapHas_eq_isSome, hs]
    by_cases hcd : c = d
    · subst hcd
      rw [mapGet_mapDelete_self]
      simp
    · rw [mapGet_mapDelete_ne _ _ _ hcd]
      simp [hcd]
  | _ =>
    simp only at hs
    unfold connected
    rw [hs]

theorem connected_of_mem_socketRooms (s : ServerState) (c : ConnId) (r : RoomId)
    (h : r ∈ socketRooms s c) : connected s c = true := by
  unfold socketRooms at h
  unfold connected
  rw [mapHas_eq_isSome]
  cases hg : mapGet c s.sids with
  | none => simp [hg] at h
  | some v => rfl

/-! ## Consistency is preserved -/

theorem wf_init : WF init :=
  ⟨by simp [init], by simp [init], by simp [init], by simp [init, members, mapGet]⟩

theorem wf_step (s : ServerState) (hwf : WF s) (d : ConnId) (e : Event)
    (out : ServerState × List Emit) (h : step s d e = some out) : WF out.1 := by
  obtain ⟨hen, hh⟩ := step_some s d e out h
  have hr := handle_rooms s d e out hh
  have hs := handle_sids s d e out hh
  have hm := fun r => members_step s hwf.roomKeys d e out r hh
  have hsr := fun c => socketRooms_step s d e out c h
  refine ⟨?_, ?_, ?_, ?_⟩
  · -- keys of rooms
    cases e with
    | joinRoom r u =>
      simp only at hr
      rw [hr]
      unfold onJoinRoom
      simp only
      rw [keys_mapModify]
      by_cases hhas : mapHas r s.rooms = true
      · rw [if_pos hhas]
        exact hwf.roomKeys
      · rw [if_neg hhas, keys_mapSet]
        simp only [hhas]
        have hnm : r ∉ s.rooms.map Prod.fst := fun hm' =>
          hhas ((mapHas_iff_mem_keys r s.rooms).mpr hm')
        exact List.Nodup.append hwf.roomKeys (List.nodup_singleton r) (by simpa using hnm)
    | endCall r =>
      simp only at hr
      rw [hr]
      unfold onEndCall
      simp only
      by_cases hhas : mapHas r s.rooms = true
      · rw [if_pos hhas]
        by_cases hl : ((mapGet r (mapModify r (setDelete d) s.rooms)).getD []).length = 0
        · rw [if_pos hl, keys_mapDelete, keys_mapModify]
          exact hwf.roomKeys.filter _
        · rw [if_neg hl, keys_mapModify]
          exact hwf.roomKeys
      · rw [if_neg hhas]
        exact hwf.roomKeys
    | disconnect =>
      simp only at hr
      rw [hr]
      exact hwf.roomKeys.sublist (keys_leaveRooms d s.rooms)
    | _ =>
      simp only at hr
      rw [hr]
      exact hwf.roomKeys
  · -- no empty room
    cases e with
    | joinRoom r u =>
      simp only at hr
      rw [hr]
      unfold onJoinRoom
      simp only
      intro p hp
      rcases mem_mapModify r (setAdd d) _ p hp with hin | ⟨v, hv⟩
      · by_cases hhas : mapHas r s.rooms = true
        · rw [if_pos hhas] at hin
          exact hwf.roomNonempty p hin
        · rw [if_neg hhas] at hin hp
          have hhas' : mapHas r s.rooms = false := by simpa using hhas
          rw [mapSet_of_not_has r [] s.rooms hhas'] at hin hp
          rcases List.mem_append.mp hin with h1 | h1
          · exact hwf.roomNonempty p h1
          · -- the fresh entry is the one that was modified
            simp only [List.mem_singleton] at h1
            subst h1
            exfalso
            have hnd : ((mapModify r (setAdd d) (s.rooms ++ [(r, [])])).map Prod.fst).Nodup := by
              rw [keys_mapModify, List.map_append]
              have hnm : r ∉ s.rooms.map Prod.fst := fun hm' =>
                hhas ((mapHas_iff_mem_keys r s.rooms).mpr hm')
              exact List.Nodup.append hwf.roomKeys (List.nodup_singleton r) (by simpa using hnm)
            have hget := mapGet_of_mem_nodup _ hnd r [] hp
            rw [mapGet_mapModify_self] at hget
            rw [mapGet_append_of_not_has r r [] s.rooms hhas'] at hget
            simp at hget
            exact setAdd_ne_nil d [] hget
      · rw [hv]
        exact setAdd_ne_nil d v
    | endCall r =>
      simp only at hr
      rw [hr]
      unfold onEndCall
      simp only
      by_cases hhas : mapHas r s.rooms = true
      · rw [if_pos hhas]
        have hndm : ((mapModify r (setDelete d) s.rooms).map Prod.fst).Nodup := by
          rw [keys_mapModify]
          exact hwf.roomKeys
        have key : ∀ p ∈ mapModify r (setDelete d) s.rooms, p.2 = [] → p.1 = r := by
          intro p hp hnil
          by_contra hne
          have hget := mapGet_of_mem_nodup _ hndm p.1 p.2 hp
          rw [mapGet_mapModify_ne _ _ _ _ hne] at hget
          exact hwf.roomNonempty p (mem_of_mapGet _ _ _ hget) hnil
        by_cases hl : ((mapGet r (mapModify r (setDelete d) s.rooms)).getD []).length = 0
        · rw [if_pos hl]
          intro p hp hnil
          have hp' := mem_mapDelete r _ p hp
          have hpr := key p hp' hnil
          have : p.1 ∈ (mapDelete r (mapModify r (setDelete d) s.rooms)).map Prod.fst :=
            List.mem_map.mpr ⟨p, hp, rfl⟩
          rw [keys_mapDelete] at this
          simp [hpr] at this
        · rw [if_neg hl]
          intro p hp hnil
          have hpr := key p hp hnil
          have hget := mapGet_of_mem_nodup _ hndm p.1 p.2 hp
          rw [hpr] at hget
          rw [hget, hnil] at hl
          simp at hl
      · rw [if_neg hhas]
        exact hwf.roomNonempty
    | disconnect =>
      simp only at hr
      rw [hr]
      exact leaveRooms_nonempty d s.rooms hwf.roomNonempty
    | _ =>
      simp only at hr
      rw [hr]
      exact hwf.roomNonempty
  · -- keys of the gateway table
    cases e with
    | connect =>
      simp only at hs
      rw [hs, List.map_append]
      have hnc : mapHas d s.sids = false := by simpa [enabled, connected] using hen
      have hnm : d ∉ s.sids.map Prod.fst := fun hm' => by
        have := (mapHas_iff_mem_keys d s.sids).mpr hm'
        rw [hnc] at this
        exact Bool.false_ne_true this
      exact List.Nodup.append hwf.sidKeys (List.nodup_singleton d) (by simpa using hnm)
    | joinRoom r u =>
      simp only at hs
      rw [hs, keys_mapModify]
      exact hwf.sidKeys
    | disconnect =>
      simp only at hs
      rw [hs, keys_mapDelete]
      exact hwf.sidKeys.filter _
    | _ =>
      simp only at hs
      rw [hs]
      exact hwf.sidKeys
  · -- members are in the gateway room
    intro r c hc
    have hmr := hm r
    have hsc := hsr c
    cases e with
    | connect =>
      simp only at hmr hsc
      rw [hmr] at hc
      have hold := hwf.memberInGateway r c hc
      by_cases hcd : c = d
      · subst hcd
        have hnc : connected s c = false := by simpa [enabled] using hen
        rw [connected_of_mem_socketRooms s c r hold] at hnc
        exact absurd hnc (by simp)
      · rw [hsc, if_neg hcd]
        exact hold
    | joinRoom r' u =>
      simp only at hmr hsc
      rw [hmr] at hc
      rw [hsc]
      by_cases hrr : r' = r
      · subst hrr
        rw [if_pos rfl] at hc
        rcases (mem_setAdd d c _).mp hc with hcd | hold
        · rw [if_pos hcd]
          exact (mem_setAdd _ _ _).mpr (Or.inl rfl)
        · by_cases hcd : c = d
          · rw [if_pos hcd]
            exact (mem_setAdd _ _ _).mpr (Or.inl rfl)
          · rw [if_neg hcd]
            exact hwf.memberInGateway r' c hold
      · rw [if_neg hrr] at hc
        have hold := hwf.memberInGateway r c hc
        by_cases hcd : c = d
        · rw [if_pos hcd]
          exact (mem_setAdd _ _ _).mpr (Or.inr hold)
        · rw [if_neg hcd]
          exact hold
    | endCall r' =>
      simp only at hmr hsc
      rw [hmr] at hc
      rw [hsc]
      by_cases hrr : r' = r
      · rw [if_pos hrr] at hc
        exact hwf.memberInGateway r c ((mem_setDelete _ _ _).mp hc).1
      · rw [if_neg hrr] at hc
        exact hwf.memberInGateway r c hc
    | disconnect =>
      simp only at hmr hsc
      rw [hmr] at hc
      obtain ⟨hold, hne⟩ := (mem_setDelete _ _ _).mp hc
      rw [hsc, if_neg hne]
      exact hwf.memberInGateway r c hold
    | _ =>
      simp only at hmr hsc
      rw [hmr] at hc
      rw [hsc]
      exact hwf.memberInGateway r c hc

theorem wf_run (tr : List (ConnId × Event)) (s s' : ServerState) (hwf : WF s)
    (h : run s tr = some s') : WF s' := by
  induction tr generalizing s with
  | nil =>
    simp only [run, Option.some.injEq] at h
    rw [← h]
    exact hwf
  | cons p rest ih =>
    obtain ⟨d, e⟩ := p
    simp only [run] at h
    cases hst : step s d e with
    | none => simp [hst] at h
    | some out =>
      simp only [hst] at h
      exact ih out.1 (wf_step s hwf d e out hst) h

theorem wf_of_reachable (s : ServerState) (h : Reachable s) : WF s := by
  obtain ⟨tr, htr⟩ := h
  exact wf_run tr init s wf_init htr

/-! ## Membership in terms of the events of a run -/

theorem roomBit_step (s : ServerState) (hnd : (s.rooms.map Prod.fst).Nodup) (d : ConnId)
    (e : Event) (out : ServerState × List Emit) (h : step s d e = some out)
    (c : ConnId) (r : RoomId) (b : Bool) (hb : c ∈ members s r ↔ b = true) :
    c ∈ members out.1 r ↔ roomBit c r b d e = true := by
  have hm := members_step s hnd d e out r (step_some s d e out h).2
  cases e with
  | joinRoom r' u =>
    simp only at hm
    rw [hm]
    by_cases hrr : r' = r
    · rw [if_pos hrr, mem_setAdd]
      by_cases hcd : d = c
      · simp [roomBit, hcd, hrr]
      · have hcd' : ¬ c = d := fun e => hcd e.symm
        simp [roomBit, hcd, hcd', hb]
    · rw [if_neg hrr]
      simp [roomBit, hrr, hb]
  | endCall r' =>
    simp only at hm
    rw [hm]
    by_cases hrr : r' = r
    · rw [if_pos hrr, mem_setDelete]
      by_cases hcd : d = c
      · simp [roomBit, hcd, hrr]
      · have hcd' : ¬ c = d := fun e => hcd e.symm
        simp [roomBit, hcd, hcd', hb]
    · rw [if_neg hrr]
      simp [roomBit, hrr, hb]
  | disconnect =>
    simp only at hm
    rw [hm, mem_setDelete]
    by_cases hcd : d = c
    · simp [roomBit, hcd]
    · have hcd' : ¬ c = d := fun e => hcd e.symm
      simp [roomBit, hcd, hcd', hb]
  | _ =>
    simp only at hm
    rw [hm]
    simpa [roomBit] using hb

theorem inRoomAfter_run (tr : List (ConnId × Event)) (s s' : ServerState) (hwf : WF s)
    (h : run s tr = some s') (c : ConnId) (r : RoomId) (b : Bool)
    (hb : c ∈ members s r ↔ b = true) :
    c ∈ members s' r ↔ inRoomAfter c r b tr = true := by
  induction tr generalizing s b with
  | nil =>
    simp only [run, Option.some.injEq] at h
    rw [← h]
    simpa [inRoomAfter] using hb
  | cons p rest ih =>
    obtain ⟨d, e⟩ := p
    simp only [run] at h
    cases hst : step s d e with
    | none => simp [hst] at h
    | some out =>
      simp only [hst] at h
      simp only [inRoomAfter]
      exact ih out.1 (wf_step s hwf d e out hst) h _
        (roomBit_step s hwf.roomKeys d e out hst c r b hb)

theorem joinedBit_step (s : ServerState) (d : ConnId) (e : Event)
    (out : ServerState × List Emit) (h : step s d e = some out)
    (c : ConnId) (r : RoomId) (b : Bool)
    (hb : r ∈ socketRooms s c ↔ connected s c = true ∧ (c = r ∨ b = true)) :
    r ∈ socketRooms out.1 c ↔
      connected out.1 c = true ∧ (c = r ∨ joinedBit c r b d e = true) := by
  have hsr := socketRooms_step s d e out c h
  have hco := connected_step s d e out c h
  have hen := (step_some s d e out h).1
  cases e with
  | connect =>
    simp only at hsr hco
    rw [hsr, hco]
    by_cases hcd : c = d
    · subst hcd
      simp [joinedBit, eq_comm]
    · have hcd' : ¬ d = c := fun e => hcd e.symm
      simpa [joinedBit, hcd, hcd'] using hb
  | joinRoom r' u =>
    simp only at hsr hco
    rw [hsr, hco]
    by_cases hcd : c = d
    · subst hcd
      have hc : connected s c = true := by simpa [enabled] using hen
      rw [if_pos rfl, mem_setAdd, hb]
      by_cases hrr : r' = r
      · simp [joinedBit, hrr, hc]
      · have hrr' : ¬ r = r' := fun e => hrr e.symm
        simp [joinedBit, hrr, hrr', hc]
    · have hcd' : ¬ d = c := fun e => hcd e.symm
      rw [if_neg hcd]
      simpa [joinedBit, hcd'] using hb
  | disconnect =>
    simp only at hsr hco
    rw [hsr, hco]
    by_cases hcd : c = d
    · subst hcd
      simp
    · have hcd' : ¬ d = c := fun e => hcd e.symm
      rw [if_neg hcd, if_neg hcd]
      simpa [joinedBit, hcd'] using hb
  | _ =>
    simp only at hsr hco
    rw [hsr, hco]
    simpa [joinedBit] using hb

theorem joinedSinceConnect_run (tr : List (ConnId × Event)) (s s' : ServerState)
    (h : run s tr = some s') (c : ConnId) (r : RoomId) (b : Bool)
    (hb : r ∈ socketRooms s c ↔ connected s c = true ∧ (c = r ∨ b = true)) :
    r ∈ socketRooms s' c ↔
      connected s' c = true ∧ (c = r ∨ joinedSinceConnect c r b tr = true) := by
  induction tr generalizing s b with
  | nil =>
    simp only [run, Option.some.injEq] at h
    rw [← h]
    simpa [joinedSinceConnect] using hb
  | cons p rest ih =>
    obtain ⟨d, e⟩ := p
    simp only [run] at h
    cases hst : step s d e with
    | none => simp [hst] at h
    | some out =>
      simp only [hst] at h
      simp only [joinedSinceConnect]
      exact ih out.1 h _ (joinedBit_step s d e out hst c r b hb)

/-- A connection counted as a member at the end of a run either was one at the start
and has not left since, or has a `join-room` in the run that is not followed by its
`end-call` for the room or its `disconnect`. -/
theorem inRoomAfter_split (c : ConnId) (r : RoomId) (tr : List (ConnId × Event)) (b : Bool)
    (h : inRoomAfter c r b tr = true) :
    (b = true ∧ ∀ q ∈ tr, q ≠ (c, Event.endCall r) ∧ q ≠ (c, Event.disconnect)) ∨
    ∃ pre post u, tr = pre ++ (c, Event.joinRoom r u) :: post ∧
      ∀ q ∈ post, q ≠ (c, Event.endCall r) ∧ q ≠ (c, Event.disconnect) := by
  induction tr generalizing b with
  | nil => exact Or.inl ⟨by simpa [inRoomAfter] using h, by simp⟩
  | cons p rest ih =>
    obtain ⟨d, e⟩ := p
    simp only [inRoomAfter] at h
    rcases ih _ h with ⟨hbit, hrest⟩ | ⟨pre, post, u, hsplit, hpost⟩
    · cases e with
      | joinRoom r' u =>
        by_cases hc : d = c ∧ r' = r
        · obtain ⟨rfl, rfl⟩ := hc
          exact Or.inr ⟨[], rest, u, rfl, hrest⟩
        · simp only [roomBit, hc, if_false] at hbit
          refine Or.inl ⟨hbit, ?_⟩
          intro q hq
          rcases List.mem_cons.mp hq with rfl | hq'
          · exact ⟨by simp, by simp⟩
          · exact hrest q hq'
      | endCall r' =>
        by_cases hc : d = c ∧ r' = r
        · simp [roomBit, hc] at hbit
        · simp only [roomBit, hc, if_false] at hbit
          refine Or.inl ⟨hbit, ?_⟩
          intro q hq
          rcases List.mem_cons.mp hq with rfl | hq'
          · refine ⟨?_, by simp⟩
            intro e
            injection e with e1 e2
            injection e2 with e3
            exact hc ⟨e1, e3⟩
          · exact hrest q hq'
      | disconnect =>
        by_cases hc : d = c
        · simp [roomBit, hc] at hbit
        · simp only [roomBit, hc, if_false] at hbit
          refine Or.inl ⟨hbit, ?_⟩
          intro q hq
          rcases List.mem_cons.mp hq with rfl | hq'
          · refine ⟨by simp, ?_⟩
            intro e
            injection e with e1 e2
            exact hc e1
          · exact hrest q hq'
      | _ =>
        simp only [roomBit] at hbit
        refine Or.inl ⟨hbit, ?_⟩
        intro q hq
        rcases List.mem_cons.mp hq with rfl | hq'
        · exact ⟨by simp, by simp⟩
        · exact hrest q hq'
    · exact Or.inr ⟨(d, e) :: pre, post, u, by simp [hsplit], hpost⟩

/-! ## Delivery -/

theorem mem_socketsIn (sids : List (ConnId × List RoomId))
    (hnd : (sids.map Prod.fst).Nodup) (r : RoomId) (d : ConnId) :
    d ∈ socketsIn sids r ↔ r ∈ (mapGet d sids).getD [] := by
  unfold socketsIn
  constructor
  · intro h
    obtain ⟨p, hp, hpd⟩ := List.mem_map.mp h
    obtain ⟨hin, hr⟩ := List.mem_filter.mp hp
    obtain ⟨k, rs⟩ := p
    simp only at hpd
    subst hpd
    rw [mapGet_of_mem_nodup sids hnd k rs hin]
    simpa using hr
  · intro h
    cases hg : mapGet d sids with
    | none => simp [hg] at h
    | some rs =>
      rw [hg] at h
      simp only [Option.getD_some] at h
      exact List.mem_map.mpr ⟨(d, rs),
        List.mem_filter.mpr ⟨mem_of_mapGet sids d rs hg, by simpa using h⟩, rfl⟩

theorem nodup_socketsIn (sids : List (ConnId × List RoomId))
    (hnd : (sids.map Prod.fst).Nodup) (r : RoomId) : (socketsIn sids r).Nodup := by
  unfold socketsIn
  exact hnd.sublist (List.Sublist.map Prod.fst (List.filter_sublist _))

theorem filter_pairs_of_not_mem (m : Msg) (d : ConnId) (l : List ConnId) (h : d ∉ l) :
    (l.map (fun x => (x, m))).filter (fun q => decide (q.1 = d)) = [] := by
  rw [List.filter_eq_nil_iff]
  intro q hq
  obtain ⟨x, hx, rfl⟩ := List.mem_map.mp hq
  have : x ≠ d := fun e => h (e ▸ hx)
  simpa using this

theorem filter_pairs_of_mem (m : Msg) (d : ConnId) (l : List ConnId) (hnd : l.Nodup)
    (h : d ∈ l) :
    (l.map (fun x => (x, m))).filter (fun q => decide (q.1 = d)) = [(d, m)] := by
  induction l with
  | nil => simp at h
  | cons x xs ih =>
    simp only [List.nodup_cons] at hnd
    by_cases hx : x = d
    · subst hx
      have := filter_pairs_of_not_mem m x xs hnd.1
      simp [List.filter_cons, this]
    · have hd : d ∈ xs := by
        rcases List.mem_cons.mp h with e | e
        · exact absurd e.symm hx
        · exact e
      have := ih hnd.2 hd
      simp [List.filter_cons, hx, this]

theorem mem_deliver_socketTo (sids : List (ConnId × List RoomId))
    (hnd : (sids.map Prod.fst).Nodup) (c : ConnId) (r : RoomId) (m : Msg)
    (q : ConnId × Msg) :
    q ∈ deliver sids (Emit.socketTo c r m) ↔
      q.2 = m ∧ q.1 ≠ c ∧ r ∈ (mapGet q.1 sids).getD [] := by
  unfold deliver
  constructor
  · intro h
    obtain ⟨x, hx, rfl⟩ := List.mem_map.mp h
    obtain ⟨hin, hne⟩ := List.mem_filter.mp hx
    exact ⟨rfl, by simpa using hne, (mem_socketsIn sids hnd r x).mp hin⟩
  · rintro ⟨hm, hne, hr⟩
    obtain ⟨x, m'⟩ := q
    simp only at hm hne hr
    subst hm
    exact List.mem_map.mpr ⟨x, List.mem_filter.mpr
      ⟨(mem_socketsIn sids hnd r x).mpr hr, by simpa using hne⟩, rfl⟩

theorem filter_deliver_socketTo (sids : List (ConnId × List RoomId))
    (hnd : (sids.map Prod.fst).Nodup) (c : ConnId) (r : RoomId) (m : Msg) (d : ConnId)
    (hne : d ≠ c) (hr : r ∈ (mapGet d sids).getD []) :
    (deliver sids (Emit.socketTo c r m)).filter (fun q => decide (q.1 = d)) = [(d, m)] := by
  unfold deliver
  apply filter_pairs_of_mem
  · exact (nodup_socketsIn sids hnd r).filter _
  · exact List.mem_filter.mpr ⟨(mem_socketsIn sids hnd r d).mpr hr, by simpa using hne⟩

theorem filter_deliver_socketTo_self (sids : List (ConnId × List RoomId))
    (c : ConnId) (r : RoomId) (m : Msg) :
    (deliver sids (Emit.socketTo c r m)).filter (fun q => decide (q.1 = c)) = [] := by
  unfold deliver
  apply filter_pairs_of_not_mem
  intro h
  have := (List.mem_filter.mp h).2
  simp at this

/-! ## First-match lookup along a run -/

theorem findClient_mapSet_first (c : ConnId) (u n : String) (m : List (ConnId × ClientInfo))
    (h : ∀ p ∈ m.takeWhile (fun q => decide (q.1 ≠ c)), p.2.userId ≠ u) :
    findClient u (mapSet c ⟨u, n, c⟩ m) = some (c, ⟨u, n, c⟩) := by
  induction m with
  | nil => simp [mapSet, findClient]
  | cons p rest ih =>
    obtain ⟨k, v⟩ := p
    by_cases hk : k = c
    · simp [mapSet, hk, findClient]
    · have htw : ((k, v) :: rest).takeWhile (fun q => decide (q.1 ≠ c)) =
          (k, v) :: rest.takeWhile (fun q => decide (q.1 ≠ c)) := by
        rw [List.takeWhile_cons]
        simp [hk]
      rw [htw] at h
      have hv : v.userId ≠ u := h (k, v) (List.mem_cons_self _ _)
      have hrest : ∀ p ∈ rest.takeWhile (fun q => decide (q.1 ≠ c)), p.2.userId ≠ u :=
        fun p hp => h p (List.mem_cons_of_mem _ hp)
      simp [mapSet, hk, findClient, hv, ih hrest]

theorem findClient_mapSet_same (c : ConnId) (u n : String) (m : List (ConnId × ClientInfo))
    (cl : ClientInfo) (h : findClient u m = some (c, cl)) :
    findClient u (mapSet c ⟨u, n, c⟩ m) = some (c, ⟨u, n, c⟩) := by
  induction m with
  | nil => simp [findClient] at h
  | cons p rest ih =>
    obtain ⟨k, v⟩ := p
    by_cases hk : k = c
    · simp [mapSet, hk, findClient]
    · by_cases hv : v.userId = u
      · simp [findClient, hv] at h
        exact absurd h.1 hk
      · simp only [findClient, hv, if_false] at h
        simp [mapSet, hk, findClient, hv, ih h]

theorem findClient_mapSet_other (c d : ConnId) (u : String) (new : ClientInfo)
    (m : List (ConnId × ClientInfo)) (cl : ClientInfo) (hd : d ≠ c) (hu : new.userId ≠ u)
    (h : findClient u m = some (c, cl)) :
    findClient u (mapSet d new m) = some (c, cl) := by
  induction m with
  | nil => simp [findClient] at h
  | cons p rest ih =>
    obtain ⟨k, v⟩ := p
    by_cases hv : v.userId = u
    · simp [findClient, hv] at h
      obtain ⟨hkc, hvc⟩ := h
      subst hkc hvc
      have hk : ¬ k = d := fun e => hd e.symm
      simp [mapSet, hk, findClient, hv]
    · simp only [findClient, hv, if_false] at h
      by_cases hk : k = d
      · simp [mapSet, hk, findClient, hu, h]
      · simp [mapSet, hk, findClient, hv, ih h]

theorem findClient_mapDelete_other (c d : ConnId) (u : String)
    (m : List (ConnId × ClientInfo)) (cl : ClientInfo) (hd : d ≠ c)
    (h : findClient u m = some (c, cl)) :
    findClient u (mapDelete d m) = some (c, cl) := by
  induction m with
  | nil => simp [findClient] at h
  | cons p rest ih =>
    obtain ⟨k, v⟩ := p
    by_cases hv : v.userId = u
    · simp [findClient, hv] at h
      obtain ⟨hkc, hvc⟩ := h
      subst hkc hvc
      have hk : ¬ k = d := fun e => hd e.symm
      simp [mapDelete, hk, findClient, hv]
    · simp only [findClient, hv, if_false] at h
      by_cases hk : k = d
      · simp [mapDelete, hk, ih h]
      · simp [mapDelete, hk, findClient, hv, ih h]


/-! ## Registration (C9) -/

/-- C9: for every state and connection `c`, `register{userId: u, name: n}` stores
`{userId: u, name: n, socketId: c}` for `c` (replacing what was stored), sends exactly
one `registered` reply, to `c` and carrying socket id `c`, leaves the identity of every
other connection, the Room Store and the gateway rooms unchanged, so `c` is still in
every room it was in. -/
theorem register_effect (s : ServerState) (c : ConnId) (u n : String) :
    mapGet c (onRegister s c u n).1.clients = some ⟨u, n, c⟩ ∧
    (onRegister s c u n).2 = [Emit.socketEmit c (Msg.registered c)] ∧
    deliverAll (onRegister s c u n).1.sids (onRegister s c u n).2 = [(c, Msg.registered c)] ∧
    (∀ d, d ≠ c → mapGet d (onRegister s c u n).1.clients = mapGet d s.clients) ∧
    (onRegister s c u n).1.rooms = s.rooms ∧
    (onRegister s c u n).1.sids = s.sids ∧
    (∀ r, c ∈ members s r → c ∈ members (onRegister s c u n).1 r) := by
  refine ⟨?_, rfl, ?_, ?_, rfl, rfl, ?_⟩
  · exact mapGet_mapSet_self c _ s.clients
  · simp [onRegister, deliverAll, deliver]
  · intro d hd
    exact mapGet_mapSet_ne c d _ s.clients hd
  · intro r hr
    exact hr

/-- C9 at a concrete state: `a` is registered and in room `r`, then registers again. -/
theorem register_effect_witness :
    mapGet "a" (onRegister ⟨[("a", ⟨"u", "n", "a"⟩)], [("r", ["a"])], [("a", ["a", "r"])]⟩
      "a" "v" "m").1.clients = some ⟨"v", "m", "a"⟩ ∧
    "a" ∈ members (onRegister ⟨[("a", ⟨"u", "n", "a"⟩)], [("r", ["a"])], [("a", ["a", "r"])]⟩
      "a" "v" "m").1 "r" :=
  have h := register_effect ⟨[("a", ⟨"u", "n", "a"⟩)], [("r", ["a"])], [("a", ["a", "r"])]⟩
    "a" "v" "m"
  ⟨h.1, h.2.2.2.2.2.2 "r" (by decide)⟩

/-! ## Joining a room (C7) -/

/-- C7: for every state, connection `c` and room id `r`, `join-room{roomId: r, userId}`
makes `r` a key of `rooms` whose member set is the previous one (empty when `r` was not
a key) with `c` added; the handler broadcasts `user-joined{userId, socketId: c}` to `r`
excluding `c` and replies `joined-room` to `c` with room id `r` and `participants` the
size of the new set, which is 1 for an unknown room and the unchanged size for a
repeated join; every other room and `clients` are unchanged. -/
theorem joinRoom_effect (s : ServerState) (c : ConnId) (r : RoomId) (userId : String) :
    mapHas r (onJoinRoom s c r userId).1.rooms = true ∧
    members (onJoinRoom s c r userId).1 r = setAdd c (members s r) ∧
    (∀ d, d ∈ members (onJoinRoom s c r userId).1 r ↔ d = c ∨ d ∈ members s r) ∧
    ((members s r).Nodup → (members (onJoinRoom s c r userId).1 r).Nodup) ∧
    (onJoinRoom s c r userId).2 =
      [Emit.socketTo c r (Msg.userJoined userId c),
       Emit.socketEmit c (Msg.joinedRoom r (members (onJoinRoom s c r userId).1 r).length)] ∧
    (mapHas r s.rooms = false → (members (onJoinRoom s c r userId).1 r).length = 1) ∧
    (c ∈ members s r →
      members (onJoinRoom s c r userId).1 r = members s r ∧
      (members (onJoinRoom s c r userId).1 r).length = (members s r).length) ∧
    (∀ r', r' ≠ r → mapGet r' (onJoinRoom s c r userId).1.rooms = mapGet r' s.rooms) ∧
    (onJoinRoom s c r userId).1.clients = s.clients := by
  have hm := members_onJoinRoom s c r userId
  refine ⟨mapHas_onJoinRoom s c r userId, hm, ?_, ?_, rfl, ?_, ?_, ?_, rfl⟩
  · intro d
    rw [hm]
    exact mem_setAdd c d _
  · intro hnd
    rw [hm]
    exact nodup_setAdd c _ hnd
  · intro hno
    rw [hm]
    have h' : mapGet r s.rooms = none := by
      rw [mapHas_eq_isSome] at hno
      cases hg : mapGet r s.rooms with
      | none => rfl
      | some v => simp [hg] at hno
    simp [members, h', setAdd]
  · intro hc
    rw [hm]
    simp [setAdd, hc]
  · intro r' hne
    exact mapGet_onJoinRoom_ne s c r r' userId hne

/-- C7 at concrete states: first join of an unknown room, and a repeated join. -/
theorem joinRoom_effect_witness :
    (members (onJoinRoom init "a" "r" "alice").1 "r").length = 1 ∧
    members (onJoinRoom ⟨[], [("r", ["a", "b"])], []⟩ "a" "r" "alice").1 "r" = ["a", "b"] :=
  ⟨(joinRoom_effect init "a" "r" "alice").2.2.2.2.2.1 (by decide),
   ((joinRoom_effect ⟨[], [("r", ["a", "b"])], []⟩ "a" "r" "alice").2.2.2.2.2.2.1
      (by decide)).1⟩

/-! ## Call routing (C4, C8, C10) -/

/-- C4: when no identity in `clients` has userId `U`, `call-request{target: U, offer}`
from `c` sends exactly one message, `call-failed{reason: "User not found", target: U}`
to `c`, nothing reaches another connection, and the state is unchanged; this is also
the step the server takes when `c` is connected. -/
theorem callRequest_unknown_target (s : ServerState) (c : ConnId) (U : String)
    (offer : Payload) (h : ∀ p ∈ s.clients, p.2.userId ≠ U) :
    onCallRequest s c U offer =
      (s, [Emit.socketEmit c (Msg.callFailed "User not found" U)]) ∧
    deliverAll s.sids (onCallRequest s c U offer).2 =
      [(c, Msg.callFailed "User not found" U)] ∧
    (connected s c = true → step s c (.callRequest U offer) =
      some (s, [Emit.socketEmit c (Msg.callFailed "User not found" U)])) := by
  have hf : findClient U s.clients = none := (findClient_eq_none_iff U s.clients).mpr h
  have h1 : onCallRequest s c U offer =
      (s, [Emit.socketEmit c (Msg.callFailed "User not found" U)]) := by
    simp [onCallRequest, hf]
  refine ⟨h1, ?_, ?_⟩
  · rw [h1]
    simp [deliverAll, deliver]
  · intro hc
    simp [step, enabled, hc, handle, h1]

/-- C4 at a concrete state: `alice` is registered, `bob` is not. -/
theorem callRequest_unknown_target_witness :
    onCallRequest ⟨[("a", ⟨"alice", "A", "a"⟩)], [], [("a", ["a"])]⟩ "a" "bob" "sdp" =
      (⟨[("a", ⟨"alice", "A", "a"⟩)], [], [("a", ["a"])]⟩,
       [Emit.socketEmit "a" (Msg.callFailed "User not found" "bob")]) :=
  (callRequest_unknown_target ⟨[("a", ⟨"alice", "A", "a"⟩)], [], [("a", ["a"])]⟩
    "a" "bob" "sdp" (by decide)).1

/-- C8: for `initiate-call{targetUserId: t, callerInfo, callId}` from `c` with a
`callerInfo` present: if no identity has userId `t` the handler sends nothing and the
state is unchanged; if some identity has, the handler sends exactly one `incoming-call`,
to the first entry of `clients` with userId `t`, with `caller` the given `callerInfo`
and `callId` the supplied one when that is non-empty, and the state is unchanged. -/
theorem initiateCall_routing (s : ServerState) (c : ConnId) (t : String) (info : Payload)
    (callId : Option String) (now : Nat) :
    ((∀ p ∈ s.clients, p.2.userId ≠ t) →
      onInitiateCall s c t (some info) callId now = some (s, []) ∧
      deliverAll s.sids [] = []) ∧
    ((∃ p ∈ s.clients, p.2.userId = t) →
      ∃ pre sid cl post, s.clients = pre ++ (sid, cl) :: post ∧ cl.userId = t ∧
        (∀ p ∈ pre, p.2.userId ≠ t) ∧
        onInitiateCall s c t (some info) callId now =
          some (s, [Emit.ioTo sid (Msg.incomingCall info (callIdOrDefault c callId now))])) ∧
    (∀ v, v ≠ "" → callIdOrDefault c (some v) now = v) := by
  refine ⟨?_, ?_, ?_⟩
  · intro h
    have hf : findClient t s.clients = none := (findClient_eq_none_iff t s.clients).mpr h
    simp [onInitiateCall, hf, deliverAll]
  · intro h
    obtain ⟨sid, cl, hf⟩ := findClient_exists t s.clients h
    obtain ⟨pre, post, hsplit, ht, hpre⟩ := findClient_split t s.clients sid cl hf
    exact ⟨pre, sid, cl, post, hsplit, ht, hpre, by simp [onInitiateCall, hf]⟩
  · intro v hv
    simp [callIdOrDefault, hv]

/-- C8 at a concrete state: no `carol`, so nothing is sent. -/
theorem initiateCall_routing_witness :
    onInitiateCall ⟨[("a", ⟨"alice", "A", "a"⟩)], [], [("a", ["a"])]⟩ "a" "carol"
      (some "info") (some "id1") 0 =
      some (⟨[("a", ⟨"alice", "A", "a"⟩)], [], [("a", ["a"])]⟩, []) :=
  ((initiateCall_routing ⟨[("a", ⟨"alice", "A", "a"⟩)], [], [("a", ["a"])]⟩ "a" "carol"
    "info" (some "id1") 0).1 (by decide)).1

/-- C10: when some identity in `clients` has userId `target`, `call-request{target, offer}`
from `c` sends exactly one message, a `call-request` (not a `call-failed`) to the first
entry of `clients` with that userId, carrying `offer` and, as sender, the userId stored
for `c` if that is non-empty and the socket id `c` otherwise; `initiate-call` and
`call-response` pick the same entry.  The order of `clients` is the order of first
registration: registering a socket that has an entry keeps the order of keys, and a
socket without an entry is added last. -/
theorem callRequest_first_match (s : ServerState) (c : ConnId) (target : String)
    (offer : Payload) (h : ∃ p ∈ s.clients, p.2.userId = target) :
    (∃ pre sid cl post, s.clients = pre ++ (sid, cl) :: post ∧ cl.userId = target ∧
        (∀ p ∈ pre, p.2.userId ≠ target) ∧
        onCallRequest s c target offer =
          (s, [Emit.ioTo sid (Msg.callRequest (callerLabel s c) offer)]) ∧
        (∀ d info callId now, onInitiateCall s d target (some info) callId now =
          some (s, [Emit.ioTo sid (Msg.incomingCall info (callIdOrDefault d callId now))])) ∧
        (∀ d accepted callId, onCallResponse s d accepted target callId =
          (s, [Emit.ioTo sid (Msg.callResponse accepted callId (mapGet d s.clients))]))) ∧
    (∀ cur, mapGet c s.clients = some cur → cur.userId ≠ "" → callerLabel s c = cur.userId) ∧
    (∀ cur, mapGet c s.clients = some cur → cur.userId = "" → callerLabel s c = c) ∧
    (mapGet c s.clients = none → callerLabel s c = c) ∧
    (∀ d u n, mapHas d s.clients = true →
      (onRegister s d u n).1.clients.map Prod.fst = s.clients.map Prod.fst) ∧
    (∀ d u n, mapHas d s.clients = false →
      (onRegister s d u n).1.clients.map Prod.fst = s.clients.map Prod.fst ++ [d]) := by
  refine ⟨?_, ?_, ?_, ?_, ?_, ?_⟩
  · obtain ⟨sid, cl, hf⟩ := findClient_exists target s.clients h
    obtain ⟨pre, post, hsplit, ht, hpre⟩ := findClient_split target s.clients sid cl hf
    refine ⟨pre, sid, cl, post, hsplit, ht, hpre, ?_, ?_, ?_⟩
    · simp [onCallRequest, hf]
    · intro d info callId now
      simp [onInitiateCall, hf]
    · intro d accepted callId
      simp [onCallResponse, hf]
  · intro cur hcur hne
    simp [callerLabel, hcur, hne]
  · intro cur hcur he
    simp [callerLabel, hcur, he]
  · intro hnone
    simp [callerLabel, hnone]
  · intro d u n hd
    simp [onRegister, keys_mapSet, hd]
  · intro d u n hd
    simp [onRegister, keys_mapSet, hd]

/-- C10 at a concrete state: two sockets hold userId `bob`; the earlier entry is chosen. -/
theorem callRequest_first_match_witness :
    ∃ pre sid cl post,
      [("b1", (⟨"bob", "B", "b1"⟩ : ClientInfo)), ("a", ⟨"alice", "A", "a"⟩),
        ("b2", ⟨"bob", "B", "b2"⟩)] = pre ++ (sid, cl) :: post ∧
      onCallRequest ⟨[("b1", ⟨"bob", "B", "b1"⟩), ("a", ⟨"alice", "A", "a"⟩),
        ("b2", ⟨"bob", "B", "b2"⟩)], [], []⟩ "a" "bob" "sdp" =
        (⟨[("b1", ⟨"bob", "B", "b1"⟩), ("a", ⟨"alice", "A", "a"⟩),
          ("b2", ⟨"bob", "B", "b2"⟩)], [], []⟩,
         [Emit.ioTo sid (Msg.callRequest (callerLabel ⟨[("b1", ⟨"bob", "B", "b1"⟩),
            ("a", ⟨"alice", "A", "a"⟩), ("b2", ⟨"bob", "B", "b2"⟩)], [], []⟩ "a") "sdp")]) :=
  have h := (callRequest_first_match ⟨[("b1", ⟨"bob", "B", "b1"⟩), ("a", ⟨"alice", "A", "a"⟩),
    ("b2", ⟨"bob", "B", "b2"⟩)], [], []⟩ "a" "bob" "sdp"
    ⟨("b1", ⟨"bob", "B", "b1"⟩), by decide, by decide⟩).1
  match h with
  | ⟨pre, sid, cl, post, h1, _, _, h4, _, _⟩ => ⟨pre, sid, cl, post, h1, h4⟩

/-! ## Rooms are never empty (C1) -/

/-- C1: in every state reached from the empty stores by a sequence of events, every
room that is a key of `rooms` has a non-empty member set; hence when every `join-room`
for `r` in the sequence is followed by an `end-call` for `r` or a `disconnect` of the
same connection, `r` is not a key of `rooms`. -/
theorem rooms_never_empty (tr : List (ConnId × Event)) (s : ServerState)
    (h : run init tr = some s) :
    (∀ p ∈ s.rooms, p.2 ≠ []) ∧
    (∀ r ms, mapGet r s.rooms = some ms → ms ≠ []) ∧
    (∀ r, (∀ c pre post u, tr = pre ++ (c, Event.joinRoom r u) :: post →
        ∃ q ∈ post, q = (c, Event.endCall r) ∨ q = (c, Event.disconnect)) →
      mapHas r s.rooms = false) := by
  have hwf : WF s := wf_run tr init s wf_init h
  have hne : ∀ r ms, mapGet r s.rooms = some ms → ms ≠ [] :=
    fun r ms hg => hwf.roomNonempty (r, ms) (mem_of_mapGet _ _ _ hg)
  refine ⟨hwf.roomNonempty, hne, ?_⟩
  intro r hleft
  cases hhas : mapHas r s.rooms with
  | false => rfl
  | true =>
    exfalso
    rw [mapHas_eq_isSome] at hhas
    cases hg : mapGet r s.rooms with
    | none => simp [hg] at hhas
    | some ms =>
      obtain ⟨c, hc⟩ := List.exists_mem_of_ne_nil ms (hne r ms hg)
      have hmem : c ∈ members s r := by
        unfold members
        rw [hg]
        exact hc
      have hbit := (inRoomAfter_run tr init s wf_init h c r false
        (by simp [init, members, mapGet])).mp hmem
      rcases inRoomAfter_split c r tr false hbit with ⟨hf, _⟩ | ⟨pre, post, u, hsplit, hpost⟩
      · exact Bool.false_ne_true hf
      · obtain ⟨q, hq, hq'⟩ := hleft c pre post u hsplit
        rcases hq' with e | e
        · exact (hpost q hq).1 e
        · exact (hpost q hq).2 e

/-- C1 on a concrete run: `a` joins `r` and ends the call, `b` joins `r` and disconnects. -/
theorem rooms_never_empty_witness :
    run init [("a", Event.connect), ("b", Event.connect), ("a", Event.joinRoom "r" "alice"),
      ("b", Event.joinRoom "r" "bob"), ("a", Event.endCall "r"), ("b", Event.disconnect)] =
      some ⟨[], [], [("a", ["a", "r"])]⟩ ∧
    mapHas "r" (⟨[], [], [("a", ["a", "r"])]⟩ : ServerState).rooms = false :=
  ⟨by decide,
   (rooms_never_empty [("a", Event.connect), ("b", Event.connect),
      ("a", Event.joinRoom "r" "alice"), ("b", Event.joinRoom "r" "bob"),
      ("a", Event.endCall "r"), ("b", Event.disconnect)]
      ⟨[], [], [("a", ["a", "r"])]⟩ (by decide)).2.2 "r" (by
        intro c pre post u hsplit
        rcases pre with _ | ⟨x0, _ | ⟨x1, _ | ⟨x2, _ | ⟨x3, _ | ⟨x4, _ | ⟨x5, pre⟩⟩⟩⟩⟩⟩ <;>
          simp at hsplit
        · obtain ⟨-, -, ⟨rfl, -⟩, rfl⟩ := hsplit
          exact ⟨("a", Event.endCall "r"), by simp, Or.inl rfl⟩
        · obtain ⟨-, -, -, ⟨rfl, -⟩, rfl⟩ := hsplit
          exact ⟨("b", Event.disconnect), by simp, Or.inr rfl⟩)⟩

/-! ## Disconnect (C2) -/

theorem mapDelete_key_ne {V : Type} (k : String) (m : List (String × V)) :
    ∀ p ∈ mapDelete k m, p.1 ≠ k := by
  intro p hp
  have hk : p.1 ∈ (mapDelete k m).map Prod.fst := List.mem_map.mpr ⟨p, hp, rfl⟩
  rw [keys_mapDelete] at hk
  simpa using (List.mem_filter.mp hk).2

/-- C2: in a reachable state, the disconnect of a live connection `c` leaves no entry for
`c` in `clients` and no member set containing `c`; the handler issues exactly one
`user-left{socketId: c}` broadcast for each room whose member set contained `c` and no
other message; identities and room memberships of every other connection are unchanged,
a room disappears only when `c` was its only member, and the gateway rooms of the other
sockets are unchanged. -/
theorem disconnect_cleanup (s : ServerState) (hs : Reachable s) (c : ConnId)
    (hc : connected s c = true) :
    ∃ out, step s c Event.disconnect = some out ∧
      mapGet c out.1.clients = none ∧
      (∀ p ∈ out.1.clients, p.1 ≠ c) ∧
      (∀ p ∈ out.1.rooms, c ∉ p.2) ∧
      (∀ r, c ∉ members out.1 r) ∧
      (∀ r, out.2.count (Emit.socketTo c r (Msg.userLeft c)) =
        if c ∈ members s r then 1 else 0) ∧
      (∀ e ∈ out.2, ∃ r, e = Emit.socketTo c r (Msg.userLeft c) ∧ c ∈ members s r) ∧
      (∀ d, d ≠ c → mapGet d out.1.clients = mapGet d s.clients) ∧
      (∀ d r, d ≠ c → (d ∈ members out.1 r ↔ d ∈ members s r)) ∧
      (∀ r, mapHas r s.rooms = true → mapHas r out.1.rooms = false →
        ∀ d ∈ members s r, d = c) ∧
      (∀ d, d ≠ c → socketRooms out.1 d = socketRooms s d) := by
  have hwf := wf_of_reachable s hs
  have hstep : step s c Event.disconnect =
      some (onDisconnect { s with sids := mapDelete c s.sids } c) := by
    simp [step, enabled, hc, handle]
  have hmem : ∀ r, members (onDisconnect { s with sids := mapDelete c s.sids } c).1 r =
      setDelete c (members s r) := fun r => mapGet_leaveRooms c s.rooms hwf.roomKeys r
  refine ⟨_, hstep, ?_, ?_, ?_, ?_, ?_, ?_, ?_, ?_, ?_, ?_⟩
  · exact mapGet_mapDelete_self c s.clients
  · exact mapDelete_key_ne c s.clients
  · exact leaveRooms_not_mem c s.rooms
  · intro r hin
    rw [hmem r] at hin
    exact ((mem_setDelete _ _ _).mp hin).2 rfl
  · intro r
    exact count_leaveRooms c s.rooms hwf.roomKeys r
  · intro e he
    have he' : e ∈ (leaveRooms c s.rooms).2 := he
    rw [leaveRooms_emits] at he'
    obtain ⟨p, hp, rfl⟩ := List.mem_map.mp he'
    obtain ⟨hin, hcp⟩ := List.mem_filter.mp hp
    refine ⟨p.1, rfl, ?_⟩
    unfold members
    rw [mapGet_of_mem_nodup s.rooms hwf.roomKeys p.1 p.2 hin]
    simpa using hcp
  · intro d hd
    exact mapGet_mapDelete_ne c d s.clients hd
  · intro d r hd
    rw [hmem r, mem_setDelete]
    exact ⟨fun h => h.1, fun h => ⟨h, hd⟩⟩
  · intro r _ hgone d hd
    by_contra hne
    have hin : d ∈ members (onDisconnect { s with sids := mapDelete c s.sids } c).1 r := by
      rw [hmem r, mem_setDelete]
      exact ⟨hd, hne⟩
    rw [members_of_not_has _ r hgone] at hin
    simp at hin
  · intro d hd
    exact congrArg (fun o => Option.getD o []) (mapGet_mapDelete_ne c d s.sids hd)

/-- C2 on a concrete reachable state: `a` and `b` are in room `r`, `a` alone in `q`. -/
theorem disconnect_cleanup_witness :
    Reachable ⟨[("a", ⟨"alice", "A", "a"⟩)], [("r", ["a", "b"]), ("q", ["a"])],
      [("a", ["a", "r", "q"]), ("b", ["b", "r"])]⟩ ∧
    ∃ out, step ⟨[("a", ⟨"alice", "A", "a"⟩)], [("r", ["a", "b"]), ("q", ["a"])],
      [("a", ["a", "r", "q"]), ("b", ["b", "r"])]⟩ "a" Event.disconnect = some out ∧
      mapGet "a" out.1.clients = none :=
  have hr : Reachable ⟨[("a", ⟨"alice", "A", "a"⟩)], [("r", ["a", "b"]), ("q", ["a"])],
      [("a", ["a", "r", "q"]), ("b", ["b", "r"])]⟩ :=
    ⟨[("a", Event.connect), ("b", Event.connect), ("a", Event.register "alice" "A"),
      ("a", Event.joinRoom "r" "alice"), ("b", Event.joinRoom "r" "bob"),
      ("a", Event.joinRoom "q" "alice")], by decide⟩
  ⟨hr, match disconnect_cleanup _ hr "a" (by decide) with
    | ⟨out, h1, h2, _⟩ => ⟨out, h1, h2⟩⟩

/-! ## Relaying offers, answers and candidates (C3) -/

/-- C3: in a reachable state, when a member `c` of room `r` sends `offer`, `answer` or
`ice-candidate` with room id `r`, the step leaves the state unchanged, every other
member of `r` receives exactly one event, of the same name, with the payload as sent
and `c` as sender, and `c` receives nothing. -/
theorem relay_to_room (s : ServerState) (hs : Reachable s) (c : ConnId) (r : RoomId)
    (hc : c ∈ members s r) (payload : Payload) :
    ∀ em ∈ [(Event.offer r payload, Msg.offer payload c),
            (Event.answer r payload, Msg.answer payload c),
            (Event.iceCandidate r payload, Msg.iceCandidate payload c)],
      step s c em.1 = some (s, [Emit.socketTo c r em.2]) ∧
      (∀ d ∈ members s r, d ≠ c →
        (deliverAll s.sids [Emit.socketTo c r em.2]).filter (fun q => decide (q.1 = d)) =
          [(d, em.2)]) ∧
      (deliverAll s.sids [Emit.socketTo c r em.2]).filter (fun q => decide (q.1 = c)) = [] := by
  have hwf := wf_of_reachable s hs
  have hcon : connected s c = true :=
    connected_of_mem_socketRooms s c r (hwf.memberInGateway r c hc)
  have hdel : ∀ m, deliverAll s.sids [Emit.socketTo c r m] =
      deliver s.sids (Emit.socketTo c r m) := by
    intro m
    simp [deliverAll]
  have hrecv : ∀ m, (∀ d ∈ members s r, d ≠ c →
        (deliverAll s.sids [Emit.socketTo c r m]).filter (fun q => decide (q.1 = d)) =
          [(d, m)]) ∧
      (deliverAll s.sids [Emit.socketTo c r m]).filter (fun q => decide (q.1 = c)) = [] := by
    intro m
    rw [hdel m]
    exact ⟨fun d hd hne => filter_deliver_socketTo s.sids hwf.sidKeys c r m d hne
      (hwf.memberInGateway r d hd), filter_deliver_socketTo_self s.sids c r m⟩
  intro em hem
  simp only [List.mem_cons, List.mem_singleton, List.not_mem_nil, or_false] at hem
  rcases hem with rfl | rfl | rfl
  · exact ⟨by simp [step, enabled, hcon, handle, onOffer], hrecv _⟩
  · exact ⟨by simp [step, enabled, hcon, handle, onAnswer], hrecv _⟩
  · exact ⟨by simp [step, enabled, hcon, handle, onIceCandidate], hrecv _⟩

/-- C3 on a concrete reachable state: `a` and `b` are in room `r` and `a` sends an offer. -/
theorem relay_to_room_witness :
    Reachable ⟨[], [("r", ["a", "b"])], [("a", ["a", "r"]), ("b", ["b", "r"])]⟩ ∧
    (deliverAll (⟨[], [("r", ["a", "b"])], [("a", ["a", "r"]), ("b", ["b", "r"])]⟩ :
        ServerState).sids [Emit.socketTo "a" "r" (Msg.offer "sdp" "a")]).filter
      (fun q => decide (q.1 = "b")) = [("b", Msg.offer "sdp" "a")] :=
  have hr : Reachable ⟨[], [("r", ["a", "b"])], [("a", ["a", "r"]), ("b", ["b", "r"])]⟩ :=
    ⟨[("a", Event.connect), ("b", Event.connect), ("a", Event.joinRoom "r" "alice"),
      ("b", Event.joinRoom "r" "bob")], by decide⟩
  ⟨hr, (relay_to_room _ hr "a" "r" (by decide) "sdp"
    (Event.offer "r" "sdp", Msg.offer "sdp" "a") (by simp)).2.1 "b" (by decide) (by decide)⟩

/-! ## Lookup by userId after a registration (C5) -/

theorem findClient_step (s : ServerState) (c : ConnId) (u : String) (d : ConnId) (e : Event)
    (out : ServerState × List Emit) (hstep : step s d e = some out)
    (hc : d = c → e ≠ Event.disconnect ∧ ∀ u' n', e = Event.register u' n' → u' = u)
    (hd : d ≠ c → ∀ n', e ≠ Event.register u n')
    (hfind : ∃ n', findClient u s.clients = some (c, ⟨u, n', c⟩)) :
    ∃ n', findClient u out.1.clients = some (c, ⟨u, n', c⟩) := by
  have hcl := handle_clients s d e out (step_some s d e out hstep).2
  obtain ⟨n0, hf⟩ := hfind
  cases e with
  | register u' n' =>
    simp only at hcl
    rw [hcl]
    by_cases hdc : d = c
    · have hu : u' = u := (hc hdc).2 u' n' rfl
      subst hdc hu
      exact ⟨n', findClient_mapSet_same d u' n' s.clients _ hf⟩
    · have hu : u' ≠ u := by
        intro e
        subst e
        exact hd hdc n' rfl
      exact ⟨n0, findClient_mapSet_other c d u ⟨u', n', d⟩ s.clients _ hdc hu hf⟩
  | disconnect =>
    simp only at hcl
    rw [hcl]
    by_cases hdc : d = c
    · exact absurd rfl (hc hdc).1
    · exact ⟨n0, findClient_mapDelete_other c d u s.clients _ hdc hf⟩
  | _ =>
    simp only at hcl
    rw [hcl]
    exact ⟨n0, hf⟩

theorem findClient_run (c : ConnId) (u : String) (tr : List (ConnId × Event))
    (s s' : ServerState) (hrun : run s tr = some s')
    (hlater : ∀ q ∈ tr,
      (q.1 = c → q.2 ≠ Event.disconnect ∧ ∀ u' n', q.2 = Event.register u' n' → u' = u) ∧
      (q.1 ≠ c → ∀ n', q.2 ≠ Event.register u n'))
    (hfind : ∃ n', findClient u s.clients = some (c, ⟨u, n', c⟩)) :
    ∃ n', findClient u s'.clients = some (c, ⟨u, n', c⟩) := by
  induction tr generalizing s with
  | nil =>
    simp only [run, Option.some.injEq] at hrun
    rw [← hrun]
    exact hfind
  | cons p rest ih =>
    obtain ⟨d, e⟩ := p
    simp only [run] at hrun
    cases hst : step s d e with
    | none => simp [hst] at hrun
    | some out =>
      simp only [hst] at hrun
      have hq := hlater (d, e) (List.mem_cons_self _ _)
      exact ih out.1 hrun (fun q hq' => hlater q (List.mem_cons_of_mem _ hq'))
        (findClient_step s c u d e out hst hq.1 hq.2 hfind)

/-- C5 as stated fails: a lookup by userId `u` after `c` registered under `u` does not
resolve to `c` when an earlier-registered connection holds `u`, when `c` has since
registered under another userId, or when `c` has since disconnected; in none of the
three runs is there a registration under `u` after that of `c`. -/
theorem lookup_resolves_elsewhere :
    (∃ s, run init [("b", Event.connect), ("c", Event.connect),
        ("b", Event.register "u" "B"), ("c", Event.register "u" "C")] = some s ∧
      findClient "u" s.clients = some ("b", ⟨"u", "B", "b"⟩) ∧
      onCallRequest s "c" "u" "sdp" = (s, [Emit.ioTo "b" (Msg.callRequest "u" "sdp")])) ∧
    (∃ s, run init [("c", Event.connect), ("c", Event.register "u" "C"),
        ("c", Event.register "v" "C")] = some s ∧
      findClient "u" s.clients = none) ∧
    (∃ s, run init [("c", Event.connect), ("c", Event.register "u" "C"),
        ("c", Event.disconnect)] = some s ∧
      findClient "u" s.clients = none) :=
  ⟨⟨⟨[("b", ⟨"u", "B", "b"⟩), ("c", ⟨"u", "C", "c"⟩)], [], [("b", ["b"]), ("c", ["c"])]⟩,
      by decide, by decide, by decide⟩,
   ⟨⟨[("c", ⟨"v", "C", "c"⟩)], [], [("c", ["c"])]⟩, by decide, by decide⟩,
   ⟨⟨[], [], []⟩, by decide, by decide⟩⟩

/-- C5, amended: let `c` handle `register{userId: u, name: n}` in a state where no
identity stored ahead of the entry of `c` (any stored identity, when `c` has no entry)
has userId `u`; after any later events in which `c` neither disconnects nor registers
under another userId and no other connection registers under `u`, the first-match
lookup by `u` resolves to the identity of `c`, with socket id `c`, and
`call-request{target: u}` from any connection is forwarded to `c` and to nobody else. -/
theorem register_then_lookup (s : ServerState) (c : ConnId) (u n : String)
    (hfirst : ∀ p ∈ s.clients.takeWhile (fun q => decide (q.1 ≠ c)), p.2.userId ≠ u)
    (tr : List (ConnId × Event)) (s' : ServerState)
    (hrun : run (onRegister s c u n).1 tr = some s')
    (hlater : ∀ q ∈ tr,
      (q.1 = c → q.2 ≠ Event.disconnect ∧ ∀ u' n', q.2 = Event.register u' n' → u' = u) ∧
      (q.1 ≠ c → ∀ n', q.2 ≠ Event.register u n')) :
    ∃ n', findClient u s'.clients = some (c, ⟨u, n', c⟩) ∧
      ∀ d offer, onCallRequest s' d u offer =
        (s', [Emit.ioTo c (Msg.callRequest (callerLabel s' d) offer)]) := by
  have h0 : ∃ n', findClient u (onRegister s c u n).1.clients = some (c, ⟨u, n', c⟩) :=
    ⟨n, findClient_mapSet_first c u n s.clients hfirst⟩
  obtain ⟨n', hf⟩ := findClient_run c u tr _ s' hrun hlater h0
  refine ⟨n', hf, ?_⟩
  intro d offer
  simp [onCallRequest, hf]

/-- C5, amended, on a concrete run: `b` registers as `v`, `c` as `u`, then `b` joins a
room and `c` registers again under `u`. -/
theorem register_then_lookup_witness :
    ∃ n', findClient "u"
        (⟨[("b", ⟨"v", "B", "b"⟩), ("c", ⟨"u", "C2", "c"⟩)], [("r", ["b"])],
          [("b", ["b", "r"]), ("c", ["c"])]⟩ : ServerState).clients =
        some ("c", ⟨"u", n', "c"⟩) :=
  match register_then_lookup
      ⟨[("b", ⟨"v", "B", "b"⟩)], [], [("b", ["b"]), ("c", ["c"])]⟩ "c" "u" "C"
      (by decide)
      [("b", Event.joinRoom "r" "bob"), ("c", Event.register "u" "C2")]
      ⟨[("b", ⟨"v", "B", "b"⟩), ("c", ⟨"u", "C2", "c"⟩)], [("r", ["b"])],
        [("b", ["b", "r"]), ("c", ["c"])]⟩
      (by decide)
      (by
        intro q hq
        simp only [List.mem_cons, List.mem_singleton, List.not_mem_nil, or_false] at hq
        rcases hq with rfl | rfl
        · exact ⟨fun h => absurd h (by decide), fun _ n' => by simp⟩
        · refine ⟨fun _ => ⟨by simp, ?_⟩, fun h => absurd rfl h⟩
          intro u' n' he
          injection he with e1 _
          exact e1.symm) with
  | ⟨n', h, _⟩ => ⟨n', h⟩

/-! ## Who receives a room broadcast (C6) -/

/-- Delivery of a broadcast that `c` sends to room `r`, in the state after any run: every
connection in `rooms[r]` other than `c` gets the message exactly once, `c` gets nothing,
and whoever gets it is a live connection other than `c` that is in gateway room `r`,
that is, has socket id `r` or has sent `join-room` for `r` since it connected. -/
theorem broadcast_delivery (tr : List (ConnId × Event)) (s : ServerState)
    (h : run init tr = some s) (c : ConnId) (r : RoomId) (m : Msg) :
    (∀ d ∈ members s r, d ≠ c →
      (deliver s.sids (Emit.socketTo c r m)).filter (fun q => decide (q.1 = d)) = [(d, m)]) ∧
    (deliver s.sids (Emit.socketTo c r m)).filter (fun q => decide (q.1 = c)) = [] ∧
    (∀ q ∈ deliver s.sids (Emit.socketTo c r m),
      q.2 = m ∧ q.1 ≠ c ∧ connected s q.1 = true ∧
        (q.1 = r ∨ joinedSinceConnect q.1 r false tr = true)) := by
  have hwf : WF s := wf_run tr init s wf_init h
  refine ⟨?_, filter_deliver_socketTo_self s.sids c r m, ?_⟩
  · intro d hd hne
    exact filter_deliver_socketTo s.sids hwf.sidKeys c r m d hne (hwf.memberInGateway r d hd)
  · intro q hq
    obtain ⟨hm, hne, hr⟩ := (mem_deliver_socketTo s.sids hwf.sidKeys c r m q).mp hq
    have hj := (joinedSinceConnect_run tr init s h q.1 r false
      (by simp [init, socketRooms, connected, mapGet, mapHas])).mp hr
    exact ⟨hm, hne, hj.1, hj.2⟩

/-- A room id that is the socket id of a live connection addresses that connection, as
`io.to(socketId)` in the call handlers relies on: with `a` and `b` connected, an `offer`
that `a` sends with room id `b` is delivered to `b`. -/
theorem socket_id_room_reached :
    ∃ s, run init [("a", Event.connect), ("b", Event.connect)] = some s ∧
      step s "a" (Event.offer "b" "sdp") =
        some (s, [Emit.socketTo "a" "b" (Msg.offer "sdp" "a")]) ∧
      deliver s.sids (Emit.socketTo "a" "b" (Msg.offer "sdp" "a")) =
        [("b", Msg.offer "sdp" "a")] :=
  ⟨⟨[], [], [("a", ["a"]), ("b", ["b"])]⟩, by decide, by decide, by decide⟩

/-- C6 fails on the code: the `end-call` handler deletes the sender from `rooms[r]` and
never takes the socket out of the gateway room that `join-room` put it in.  After `a`
and `b` joined `r` and `a` sent `end-call` for `r`, the member set of `r` is `b` alone,
`a` is still in gateway room `r`, and the `offer` that `b` then sends for `r` is
delivered to `a`.  After `b` has sent `end-call` too, `r` is not a key of `rooms`, and an
`answer` that `a` sends for `r` is still delivered to `b`. -/
theorem endCall_keeps_gateway_room :
    (∃ s, run init [("a", Event.connect), ("b", Event.connect),
        ("a", Event.joinRoom "r" "alice"), ("b", Event.joinRoom "r" "bob"),
        ("a", Event.endCall "r")] = some s ∧
      members s "r" = ["b"] ∧
      socketRooms s "a" = ["a", "r"] ∧
      step s "b" (Event.offer "r" "sdp") =
        some (s, [Emit.socketTo "b" "r" (Msg.offer "sdp" "b")]) ∧
      deliverAll s.sids [Emit.socketTo "b" "r" (Msg.offer "sdp" "b")] =
        [("a", Msg.offer "sdp" "b")]) ∧
    (∃ s, run init [("a", Event.connect), ("b", Event.connect),
        ("a", Event.joinRoom "r" "alice"), ("b", Event.joinRoom "r" "bob"),
        ("a", Event.endCall "r"), ("b", Event.endCall "r")] = some s ∧
      mapHas "r" s.rooms = false ∧
      step s "a" (Event.answer "r" "sdp") =
        some (s, [Emit.socketTo "a" "r" (Msg.answer "sdp" "a")]) ∧
      deliverAll s.sids [Emit.socketTo "a" "r" (Msg.answer "sdp" "a")] =
        [("b", Msg.answer "sdp" "a")]) :=
  ⟨⟨⟨[], [("r", ["b"])], [("a", ["a", "r"]), ("b", ["b", "r"])]⟩, by decide, by decide,
      by decide, by decide, by decide⟩,
   ⟨⟨[], [], [("a", ["a", "r"]), ("b", ["b", "r"])]⟩, by decide, by decide, by decide,
      by decide⟩⟩

end SignallingServer
